import Mathlib

/-!
# INI documents: parser, store and serializer

A shallow embedding of `ini.go`.  Go strings and byte slices are modelled as
lists of Unicode code points (valid UTF-8 text): the delimiters the code looks
for (`\n`, `[`, `]`, `=`, `#`) are ASCII, so searching, splitting and slicing
at them agree on bytes and on code points, and `bytes.TrimSpace` removes
exactly the leading and trailing code points for which `unicode.IsSpace` holds.

Go maps are modelled as association lists with at most one entry that is found
per key (`mget` returns the first match, `mset` overwrites it in place or
appends).  The order of the entries stands for one possible iteration order;
`Write` is therefore a relation that ranges over every iteration order.
-/

namespace Ini

/-- Text: a Go `string` / `[]byte` holding valid UTF-8. -/
abbrev Str := List Char

/-- The sentinel errors of the package, and the anonymous error of `SectionDel`. -/
inductive Err where
  | ErrFormat
  | ErrSectionMiss
  | ErrKeyMiss
  | errRemoveDefault
  deriving DecidableEq, Repr

/-- Result of a fallible call: the value, or the error returned. -/
inductive Res (α : Type) where
  | ok : α → Res α
  | error : Err → Res α
  deriving DecidableEq, Repr

/-! ## Constants -/

def defaultSection : Str := []
def lineBreak : Char := Char.ofNat 10
def separator : Char := '='
def comment : Char := '#'

/-! ## Library functions used by the code -/

/-- Go `unicode.IsSpace`: the Latin-1 spaces and the code points with the
`White_Space` property. -/
def isSpace (c : Char) : Bool :=
  let n := c.toNat
  (9 ≤ n && n ≤ 13) || n == 32 || n == 0x85 || n == 0xA0 || n == 0x1680 ||
    (0x2000 ≤ n && n ≤ 0x200A) || n == 0x2028 || n == 0x2029 || n == 0x202F ||
    n == 0x205F || n == 0x3000

/-- Go `bytes.TrimSpace`: drop leading and trailing white space. -/
def TrimSpace (s : Str) : Str :=
  (s.dropWhile isSpace).rdropWhile isSpace

/-- Go `bytes.Split(data, sep)` for the one-character separator `sep`: the
pieces between the occurrences of `sep`; always at least one piece. -/
def Split : Str → Char → List Str
  | [], _ => [[]]
  | c :: cs, sep =>
    if c = sep then [] :: Split cs sep
    else
      match Split cs sep with
      | [] => [[c]]
      | l :: ls => (c :: l) :: ls

/-- Go `bytes.Index(line, sep)` for a one-character `sep`: position of the
first occurrence, `none` standing for `-1`. -/
def Index : Str → Char → Option Nat
  | [], _ => none
  | c :: cs, sep => if c = sep then some 0 else (Index cs sep).map (· + 1)

/-- Go `bytes.HasPrefix(line, prefix)` for a one-character prefix. -/
def HasPrefix (line : Str) (c : Char) : Bool :=
  line.head? == some c

/-! ## Maps -/

/-- Map lookup `m[k]` with the comma-ok flag as an `Option`. -/
def mget {β : Type} : List (Str × β) → Str → Option β
  | [], _ => none
  | (a, b) :: t, k => if a = k then some b else mget t k

/-- Map assignment `m[k] = v`. -/
def mset {β : Type} : List (Str × β) → Str → β → List (Str × β)
  | [], k, v => [(k, v)]
  | (a, b) :: t, k, v => if a = k then (k, v) :: t else (a, b) :: mset t k v

/-- Builtin `delete(m, k)`. -/
def mdel {β : Type} (m : List (Str × β)) (k : Str) : List (Str × β) :=
  m.filter (fun e => e.1 ≠ k)

/-- Type `kvMap`: `map[string]string`. -/
abbrev kvMap := List (Str × Str)

/-- Type `INI`: `map[string]kvMap`. -/
abbrev INI := List (Str × kvMap)

/-- The keys of a map. -/
def keys {β : Type} (m : List (Str × β)) : List Str := m.map Prod.fst

/-- Function `New`: a document holding only the empty default section. -/
def New : INI := [(defaultSection, [])]

/-! ## Parser -/

/-- The statement `kvmap[key] = val` of `parse`, where `kvmap` is the map
stored at `ini[cur]` (the two are the same Go map object). -/
def setCurrent (ini : INI) (cur key val : Str) : INI :=
  mset ini cur (mset ((mget ini cur).getD []) key val)

/-- One iteration of the `for _, line := range lines` loop of `parse`, on the
state `(ini, currentSectionName)`. -/
def parseLine (ini : INI) (cur : Str) (raw : Str) : Res (INI × Str) :=
  let line := TrimSpace raw
  let size := line.length
  if size = 0 ∨ HasPrefix line comment = true then
    Res.ok (ini, cur)
  else if line.head? = some '[' ∧ line.getLast? = some ']' then
    let name := (line.take (size - 1)).drop 1
    if name.length = 0 then
      Res.error Err.ErrFormat
    else
      Res.ok (mset ini name [], name)
  else
    match Index line separator with
    | none => Res.error Err.ErrFormat
    | some pos =>
      let key := TrimSpace (line.take pos)
      let val := TrimSpace (line.drop (pos + 1))
      if key.length = 0 ∨ val.length = 0 then
        Res.error Err.ErrFormat
      else
        Res.ok (setCurrent ini cur key val, cur)

/-- The loop of `parse` over the remaining lines. -/
def parseLoop : INI → Str → List Str → Res INI
  | ini, _, [] => Res.ok ini
  | ini, cur, raw :: rest =>
    match parseLine ini cur raw with
    | Res.error e => Res.error e
    | Res.ok (ini', cur') => parseLoop ini' cur' rest

/-- Method `INI.parse` on the content `data` read from the reader.  The
receiver is returned on success; on `ErrFormat` the callers `Parse` and
`ParseString` discard the receiver, so only the error is kept. -/
def parse (ini : INI) (data : Str) : Res INI :=
  parseLoop (mset ini defaultSection []) defaultSection (Split data lineBreak)

/-- Function `ParseString`. -/
def ParseString (s : Str) : Res INI :=
  parse New s

/-- Function `Parse`, applied to the content the reader delivers. -/
def Parse (data : Str) : Res INI :=
  parse New data

/-! ## Accessors and mutators -/

/-- Method `SectionSetKey`. -/
def SectionSetKey (ini : INI) (sectionName k v : Str) : INI :=
  let ini1 := if (mget ini sectionName).isNone then mset ini sectionName [] else ini
  mset ini1 sectionName (mset ((mget ini1 sectionName).getD []) k v)

/-- Method `DefaultSectionSetKey`. -/
def DefaultSectionSetKey (ini : INI) (k v : Str) : INI :=
  SectionSetKey ini defaultSection k v

/-- Method `SectionGetKey`: the value, or the error (the returned string is
`""` in the error cases). -/
def SectionGetKey (ini : INI) (sectionName k : Str) : Res Str :=
  match mget ini sectionName with
  | none => Res.error Err.ErrSectionMiss
  | some s =>
    match mget s k with
    | none => Res.error Err.ErrKeyMiss
    | some v => Res.ok v

/-- Method `DefaultSectionGetKey`. -/
def DefaultSectionGetKey (ini : INI) (k : Str) : Res Str :=
  SectionGetKey ini defaultSection k

/-- Method `SectionUpdate`; `data` is iterated in its list order. -/
def SectionUpdate (ini : INI) (sectionName : Str) (data : kvMap) : INI :=
  let ini1 := if (mget ini sectionName).isNone then mset ini sectionName [] else ini
  data.foldl (fun acc e => mset acc sectionName (mset ((mget acc sectionName).getD []) e.1 e.2)) ini1

/-! ## Serializer -/

/-- Method `writeKV`, the entries being visited in list order. -/
def writeKV : kvMap → Str
  | [] => []
  | (k, v) :: t => k ++ separator :: (v ++ lineBreak :: writeKV t)

/-- The `for section, kvmap := range ini` loop of `Write`, the sections being
visited in list order. -/
def writeSections : INI → Str
  | [] => []
  | (name, kv) :: t =>
    if name = defaultSection then writeSections t
    else '[' :: (name ++ ']' :: lineBreak :: (writeKV kv ++ writeSections t))

/-- Method `Write` for one iteration order: the text received by the writer
when every `range` visits the entries in list order. -/
def WriteIn (ini : INI) : Str :=
  (match mget ini defaultSection with
    | some kv => writeKV kv
    | none => []) ++ writeSections ini

/-- The iteration orders of a document: `ini'` lists the sections of `ini` in
some order, each with its entries in some order. -/
def IterOrder (ini ini' : INI) : Prop :=
  ∃ mid : INI, List.Forall₂ (fun a b => a.1 = b.1 ∧ List.Perm a.2 b.2) ini mid ∧
    List.Perm mid ini'

/-- Method `Write`: `out` is a text that `Write` can produce for `ini`. -/
def Write (ini : INI) (out : Str) : Prop :=
  ∃ ini', IterOrder ini ini' ∧ out = WriteIn ini'

/-! ## Vocabulary of the statements -/

/-- The text `t` has no white space at its start nor at its end. -/
def Trimmed (t : Str) : Prop :=
  (∀ c, t.head? = some c → isSpace c = false) ∧
    (∀ c, t.getLast? = some c → isSpace c = false)

/-- The text `w` is made of white space only. -/
def Blank (w : Str) : Prop := ∀ c ∈ w, isSpace c = true

/-- The line starts with `[` and ends with `]`. -/
def Bracketed (line : Str) : Prop :=
  line.head? = some '[' ∧ line.getLast? = some ']'

instance (line : Str) : Decidable (Bracketed line) := by
  unfold Bracketed
  infer_instance

/-- The part of a line before its first `=` (the whole line when it has none). -/
def beforeSep (line : Str) : Str :=
  line.takeWhile (fun c => c != separator)

/-- The part of a line after its first `=` (empty when it has none). -/
def afterSep (line : Str) : Str :=
  (line.dropWhile (fun c => c != separator)).drop 1

/-- A trimmed line is skipped when it is empty or a comment. -/
def Skipped (line : Str) : Prop :=
  line = [] ∨ line.head? = some comment

instance (line : Str) : Decidable (Skipped line) := by
  unfold Skipped
  infer_instance

/-- The lines of a text that count: each line trimmed, the empty lines and the
comment lines dropped. -/
def significantLines (s : Str) : List Str :=
  ((Split s lineBreak).map TrimSpace).filter (fun l => ¬ Skipped l)

/-- What a well-formed line stands for. -/
inductive Item where
  | header (name : Str)
  | entry (key val : Str)
  deriving DecidableEq, Repr

/-- Reading of a significant line by the grammar: a bracketed line is the
header named by the text between the brackets, which must not be empty; any
other line must hold `=`, and is the entry of the trimmed text before the
first `=` and the trimmed text after it, neither being empty.  `none` when
the line is malformed. -/
def lineItem (line : Str) : Option Item :=
  if Bracketed line then
    (if line.tail.dropLast = [] then none else some (Item.header line.tail.dropLast))
  else if separator ∈ line then
    (if TrimSpace (beforeSep line) = [] ∨ TrimSpace (afterSep line) = [] then none
      else some (Item.entry (TrimSpace (beforeSep line)) (TrimSpace (afterSep line))))
  else none

/-- A trimmed line is malformed: it is not empty, not a comment, and it is
`[]`, or it is not bracketed and has no `=`, or it has only white space before
its first `=`, or only white space after its first `=`. -/
def Malformed (t : Str) : Prop :=
  t ≠ [] ∧ t.head? ≠ some comment ∧
    (t = ['[', ']'] ∨ (¬ Bracketed t ∧ separator ∉ t) ∨
      (separator ∈ t ∧ Blank (beforeSep t)) ∨ (separator ∈ t ∧ Blank (afterSep t)))

/-- Effect of an accepted line on the parser state `(ini, currentSectionName)`. -/
def applyItem (st : INI × Str) : Item → INI × Str
  | Item.header name => (mset st.1 name [], name)
  | Item.entry k v => (setCurrent st.1 st.2 k v, st.2)

/-- The parser loop over the readings of the significant lines. -/
def itemLoop : INI × Str → List (Option Item) → Res INI
  | st, [] => Res.ok st.1
  | _, none :: _ => Res.error Err.ErrFormat
  | st, some it :: rest => itemLoop (applyItem st it) rest

/-- The text `w` is made of spaces and tabs only. -/
def SpacesTabs (w : Str) : Prop := ∀ c ∈ w, c = ' ' ∨ c = Char.ofNat 9

/-- The entries at the start of a run of items, up to the first header. -/
def leadingEntries : List Item → kvMap
  | Item.entry k v :: t => (k, v) :: leadingEntries t
  | _ => []

/-- Every header of a run of items, with the entries lying between it and the
next header. -/
def headerBlocks : List Item → List (Str × kvMap)
  | [] => []
  | Item.header n :: t => (n, leadingEntries t) :: headerBlocks t
  | Item.entry _ _ :: t => headerBlocks t

/-- The value of key `k` in a run of entries, the last entry for `k` winning. -/
def lastValue (es : kvMap) (k : Str) : Option Str :=
  mget es.reverse k

/-- Two-level lookup in a document: `none` when the section is absent,
`some none` when the section is present without the key, `some (some v)` when
the section maps the key to `v`. -/
def find (d : INI) (s k : Str) : Option (Option Str) :=
  (mget d s).map (fun m => mget m k)

/-- Two documents are equal as section to key to value mappings: the same
sections are present, and each holds the same keys with the same values. -/
def SameDoc (a b : INI) : Prop :=
  ∀ s k, find a s k = find b s k

/-- An entry that the serializer writes and the parser reads back: the key is
not empty, has no `=`, no line break, no surrounding white space and does not
start with `#`; the value is not empty, has no line break and no surrounding
white space; and the key does not start with `[` while the value ends with
`]`. -/
def EntryOK (k v : Str) : Prop :=
  k ≠ [] ∧ separator ∉ k ∧ lineBreak ∉ k ∧ Trimmed k ∧ k.head? ≠ some comment ∧
    v ≠ [] ∧ lineBreak ∉ v ∧ Trimmed v ∧
    ¬ (k.head? = some '[' ∧ v.getLast? = some ']')

/-- An item that the serializer writes and the parser reads back. -/
def ItemOK : Item → Prop
  | Item.header n => n ≠ [] ∧ lineBreak ∉ n
  | Item.entry k v => EntryOK k v

/-- A document that is a Go map of Go maps (no key listed twice), contains the
default section, has no line break in a section name, and only entries that
are read back. -/
def Writable (d : INI) : Prop :=
  (keys d).Nodup ∧ defaultSection ∈ keys d ∧
    ∀ n m, (n, m) ∈ d →
      lineBreak ∉ n ∧ (keys m).Nodup ∧ ∀ k v, (k, v) ∈ m → EntryOK k v

/-- The line that the serializer writes for an item, without its line break. -/
def itemLine : Item → Str
  | Item.header n => '[' :: (n ++ [']'])
  | Item.entry k v => k ++ separator :: v

/-- The text of a run of items, one line each. -/
def render : List Item → Str
  | [] => []
  | it :: t => itemLine it ++ lineBreak :: render t

/-- The entries of a section as items. -/
def entryItems (kv : kvMap) : List Item :=
  kv.map (fun e => Item.entry e.1 e.2)

/-- The items that the section loop of `Write` writes. -/
def sectionItems : INI → List Item
  | [] => []
  | (name, kv) :: t =>
    if name = defaultSection then sectionItems t
    else Item.header name :: (entryItems kv ++ sectionItems t)

/-- The items that `Write` writes, in the order of the lists. -/
def docItems (ini : INI) : List Item :=
  (match mget ini defaultSection with
    | some kv => entryItems kv
    | none => []) ++ sectionItems ini

/-! ## Deleting and reading sections -/

/-- Method `SectionDelKey`: the receiver after the call, and the error
returned (`none` for `nil`). -/
def SectionDelKey (ini : INI) (sectionName k : Str) : INI × Option Err :=
  match mget ini sectionName with
  | none => (ini, some Err.ErrSectionMiss)
  | some m =>
    if (mget m k).isSome then (mset ini sectionName (mdel m k), none)
    else (ini, none)

/-- Method `DefaultSectionDelKey`. -/
def DefaultSectionDelKey (ini : INI) (k : Str) : INI × Option Err :=
  SectionDelKey ini defaultSection k

/-- Method `SectionDel`: the receiver after the call, and the error returned
(`none` for `nil`). -/
def SectionDel (ini : INI) (sectionName : Str) : INI × Option Err :=
  if sectionName = defaultSection then (ini, some Err.errRemoveDefault)
  else
    match mget ini sectionName with
    | none => (ini, some Err.ErrSectionMiss)
    | some _ => (mdel ini sectionName, none)

/-- Method `SectionGet`: the receiver after the call, the map returned (`none`
for the `nil` map) and the error returned (`none` for `nil`). -/
def SectionGet (ini : INI) (sectionName : Str) : INI × Option kvMap × Option Err :=
  match mget ini sectionName with
  | none => (ini, none, some Err.ErrSectionMiss)
  | some m => (ini, some m, none)

/-- Method `DefaultSectionGet`. -/
def DefaultSectionGet (ini : INI) : INI × Option kvMap × Option Err :=
  SectionGet ini defaultSection

/-- A call of one of the mutating methods. -/
inductive Call where
  | sectionSetKey (s k v : Str)
  | defaultSectionSetKey (k v : Str)
  | sectionDelKey (s k : Str)
  | defaultSectionDelKey (k : Str)
  | sectionDel (s : Str)
  | sectionUpdate (s : Str) (data : kvMap)

/-- The receiver after a call, whether the call returned an error or not. -/
def runCall (ini : INI) : Call → INI
  | Call.sectionSetKey s k v => SectionSetKey ini s k v
  | Call.defaultSectionSetKey k v => DefaultSectionSetKey ini k v
  | Call.sectionDelKey s k => (SectionDelKey ini s k).1
  | Call.defaultSectionDelKey k => (DefaultSectionDelKey ini k).1
  | Call.sectionDel s => (SectionDel ini s).1
  | Call.sectionUpdate s data => SectionUpdate ini s data

/-! ## The format of the written text -/

/-- Concatenation of texts. -/
def concat (l : List Str) : Str :=
  l.foldr (fun a b => a ++ b) []

/-- The line `key=value` with its line break. -/
def entryText (e : Str × Str) : Str :=
  e.1 ++ separator :: (e.2 ++ [lineBreak])

/-- The line `[name]` with its line break, followed by the lines of the
entries of the section. -/
def sectionText (e : Str × kvMap) : Str :=
  '[' :: (e.1 ++ ']' :: lineBreak :: concat (e.2.map entryText))

/-- The text made of the lines of the entries `kv0`, without header, followed
by the texts of the sections `others`. -/
def formatText (kv0 : kvMap) (others : INI) : Str :=
  concat (kv0.map entryText) ++ concat (others.map sectionText)

/-! ## The parser with checked accesses -/

/-- Go index expression `line[i]`; `none` stands for the run-time panic of an
index out of range. -/
def index? (line : Str) (i : Int) : Option Char :=
  if 0 ≤ i ∧ i < line.length then line.get? i.toNat else none

/-- Go slice expression `line[lo:hi]`; `none` stands for the run-time panic
when not `0 ≤ lo ≤ hi ≤ len(line)` (Go allows `hi` up to the capacity; the
length is the stricter bound). -/
def slice? (line : Str) (lo hi : Int) : Option Str :=
  if 0 ≤ lo ∧ lo ≤ hi ∧ hi ≤ line.length then some ((line.take hi.toNat).drop lo.toNat)
  else none

/-- One iteration of the loop of `parse` with every index and slice expression
checked, evaluated in the order of the code (`&&` and `||` short-circuit);
`none` stands for a panic. -/
def parseLineChecked (ini : INI) (cur : Str) (raw : Str) : Option (Res (INI × Str)) :=
  let line := TrimSpace raw
  let size : Int := line.length
  if size = 0 ∨ HasPrefix line comment = true then
    some (Res.ok (ini, cur))
  else
    (index? line 0).bind fun c0 =>
    (if c0 = '[' then (index? line (size - 1)).map (fun c => decide (c = ']'))
      else some false).bind fun isHeader =>
    if isHeader = true then
      (slice? line 1 (size - 1)).map fun name =>
        if name.length = 0 then Res.error Err.ErrFormat
        else Res.ok (mset ini name [], name)
    else
      match Index line separator with
      | none => some (Res.error Err.ErrFormat)
      | some pos =>
        (slice? line 0 pos).bind fun before =>
        (slice? line (pos + 1) size).map fun after =>
          if (TrimSpace before).length = 0 ∨ (TrimSpace after).length = 0 then
            Res.error Err.ErrFormat
          else
            Res.ok (setCurrent ini cur (TrimSpace before) (TrimSpace after), cur)

/-- The loop of `parse` with checked accesses. -/
def parseLoopChecked : INI → Str → List Str → Option (Res INI)
  | ini, _, [] => some (Res.ok ini)
  | ini, cur, raw :: rest =>
    match parseLineChecked ini cur raw with
    | none => none
    | some (Res.error e) => some (Res.error e)
    | some (Res.ok (ini', cur')) => parseLoopChecked ini' cur' rest

/-- Method `INI.parse` with checked accesses. -/
def parseChecked (ini : INI) (data : Str) : Option (Res INI) :=
  parseLoopChecked (mset ini defaultSection []) defaultSection (Split data lineBreak)

/-! # Theorems -/

/-! ## Map lemmas -/

theorem mget_mset_same {β : Type} (m : List (Str × β)) (k : Str) (v : β) :
    mget (mset m k v) k = some v := by
  induction m with
  | nil => simp [mset, mget]
  | cons e t ih =>
    obtain ⟨a, b⟩ := e
    by_cases h : a = k
    · simp [mset, mget, h]
    · simp [mset, mget, h, ih]

theorem mget_mset_ne {β : Type} (m : List (Str × β)) (k k' : Str) (v : β) (h : k ≠ k') :
    mget (mset m k v) k' = mget m k' := by
  induction m with
  | nil => simp [mset, mget, h]
  | cons e t ih =>
    obtain ⟨a, b⟩ := e
    by_cases h1 : a = k
    · subst h1
      simp [mset, mget, h]
    · by_cases h2 : a = k'
      · subst h2
        simp [mset, mget, h1]
      · simp [mset, mget, h1, h2, ih]

theorem mget_eq_none_iff {β : Type} (m : List (Str × β)) (k : Str) :
    mget m k = none ↔ k ∉ keys m := by
  induction m with
  | nil => simp [mget, keys]
  | cons e t ih =>
    obtain ⟨a, b⟩ := e
    by_cases h : a = k
    · subst h
      simp only [mget, keys, if_true, List.map_cons, List.mem_cons, true_or, not_true_eq_false]
      simp
    · have h' : ¬ k = a := fun e => h e.symm
      simp only [keys] at ih
      simp only [mget, keys, if_neg h, ih, List.map_cons, List.mem_cons, h', false_or]

theorem mget_isSome_iff {β : Type} (m : List (Str × β)) (k : Str) :
    (mget m k).isSome ↔ k ∈ keys m := by
  rw [← not_iff_not, ← mget_eq_none_iff]
  cases mget m k <;> simp

/-! ## White space -/

theorem TrimSpace_eq_nil_iff (l : Str) : TrimSpace l = [] ↔ Blank l := by
  unfold TrimSpace Blank
  rw [List.rdropWhile_eq_nil_iff]
  constructor
  · intro h
    have hnil : l.dropWhile isSpace = [] := by
      cases hx : l.dropWhile isSpace with
      | nil => rfl
      | cons a t =>
        have h1 := List.head?_dropWhile_not isSpace l
        rw [hx] at h1 h
        simp only [List.head?_cons] at h1
        have h2 := h a (List.mem_cons_self a t)
        rw [h1] at h2
        exact absurd h2 (by simp)
    exact List.dropWhile_eq_nil_iff.1 hnil
  · intro h
    rw [List.dropWhile_eq_nil_iff.2 h]
    simp

theorem rdropWhile_append_blank (l w : Str) (hw : Blank w) :
    (l ++ w).rdropWhile isSpace = l.rdropWhile isSpace := by
  unfold List.rdropWhile
  rw [List.reverse_append, List.dropWhile_append_of_pos]
  intro c hc
  exact hw c (List.mem_reverse.1 hc)

theorem Trimmed_nil : Trimmed [] := by
  constructor <;> intro c h <;> simp at h

theorem TrimSpace_of_Trimmed (t : Str) (h : Trimmed t) : TrimSpace t = t := by
  unfold TrimSpace
  have h1 : t.dropWhile isSpace = t := by
    cases t with
    | nil => rfl
    | cons a t' =>
      have := h.1 a rfl
      rw [List.dropWhile_cons_of_neg (by simp [this])]
  rw [h1, List.rdropWhile_eq_self_iff]
  intro hl
  have := h.2 _ (List.getLast?_eq_getLast t hl)
  simp [this]

theorem Trimmed_TrimSpace (l : Str) : Trimmed (TrimSpace l) := by
  unfold TrimSpace
  constructor
  · intro c hc
    have hpre : (l.dropWhile isSpace).rdropWhile isSpace <+: l.dropWhile isSpace :=
      List.rdropWhile_prefix isSpace _
    obtain ⟨r, hr⟩ := hpre
    have h1 := List.head?_dropWhile_not isSpace l
    rw [← hr] at h1
    cases hx : (l.dropWhile isSpace).rdropWhile isSpace with
    | nil => rw [hx] at hc; simp at hc
    | cons a t =>
      rw [hx] at hc h1
      simp only [List.head?_cons, Option.some.injEq] at hc
      simp only [List.cons_append, List.head?_cons] at h1
      rw [← hc]; exact h1
  · intro c hc
    cases hx : (l.dropWhile isSpace).rdropWhile isSpace with
    | nil => rw [hx] at hc; simp at hc
    | cons a t =>
      have hne : (l.dropWhile isSpace).rdropWhile isSpace ≠ [] := by rw [hx]; simp
      have h1 := List.rdropWhile_last_not isSpace (l.dropWhile isSpace) hne
      rw [List.getLast?_eq_getLast _ hne] at hc
      simp only [Option.some.injEq] at hc
      rw [hc] at h1
      simpa using h1

/-- Every text is its trimmed form between two runs of white space. -/
theorem TrimSpace_decompose (l : Str) :
    ∃ w1 w2, l = w1 ++ TrimSpace l ++ w2 ∧ Blank w1 ∧ Blank w2 := by
  refine ⟨l.takeWhile isSpace, (l.dropWhile isSpace).rtakeWhile isSpace, ?_, ?_, ?_⟩
  · have h1 := List.takeWhile_append_dropWhile isSpace (l.dropWhile isSpace).reverse
    have h2 : (l.dropWhile isSpace).rdropWhile isSpace ++
        (l.dropWhile isSpace).rtakeWhile isSpace = l.dropWhile isSpace := by
      unfold List.rdropWhile List.rtakeWhile
      rw [← List.reverse_append, h1, List.reverse_reverse]
    unfold TrimSpace
    rw [List.append_assoc, h2, List.takeWhile_append_dropWhile]
  · intro c hc
    exact (List.mem_takeWhile_imp hc)
  · intro c hc
    exact (List.mem_rtakeWhile_imp hc)

theorem TrimSpace_pad (w1 t w2 : Str) (ht : Trimmed t) (h1 : Blank w1) (h2 : Blank w2) :
    TrimSpace (w1 ++ t ++ w2) = t := by
  cases t with
  | nil =>
    rw [TrimSpace_eq_nil_iff]
    intro c hc
    simp only [List.append_nil, List.mem_append] at hc
    rcases hc with hc | hc
    · exact h1 c hc
    · exact h2 c hc
  | cons a t' =>
    have ha := ht.1 a rfl
    have hd : (w1 ++ (a :: t') ++ w2).dropWhile isSpace = (a :: t') ++ w2 := by
      rw [List.append_assoc, List.dropWhile_append_of_pos h1]
      rw [List.cons_append, List.dropWhile_cons_of_neg (by simp [ha])]
    unfold TrimSpace
    rw [hd, rdropWhile_append_blank _ _ h2, List.rdropWhile_eq_self_iff]
    intro hl
    have := ht.2 _ (List.getLast?_eq_getLast (a :: t') hl)
    simp [this]

theorem TrimSpace_idem (l : Str) : TrimSpace (TrimSpace l) = TrimSpace l :=
  TrimSpace_of_Trimmed _ (Trimmed_TrimSpace l)

/-! ## Separator and brackets -/

theorem Index_eq_none_iff (l : Str) (c : Char) : Index l c = none ↔ c ∉ l := by
  induction l with
  | nil => simp [Index]
  | cons a t ih =>
    by_cases h : a = c
    · simp [Index, h]
    · have h' : ¬ c = a := fun e => h e.symm
      simp [Index, h, h', ih]

theorem Index_append (a b : Str) (c : Char) (h : c ∉ a) :
    Index (a ++ c :: b) c = some a.length := by
  induction a with
  | nil => simp [Index]
  | cons x t ih =>
    have hx : ¬ x = c := fun e => h (by simp [e])
    have ht : c ∉ t := fun e => h (List.mem_cons_of_mem _ e)
    simp [Index, hx, ih ht]

theorem beforeSep_append (a b : Str) (h : separator ∉ a) :
    beforeSep (a ++ separator :: b) = a := by
  unfold beforeSep
  induction a with
  | nil => simp
  | cons x t ih =>
    have hx : ¬ x = separator := fun e => h (by simp [e])
    have ht : separator ∉ t := fun e => h (List.mem_cons_of_mem _ e)
    simp [List.takeWhile_cons, hx, ih ht]

theorem afterSep_append (a b : Str) (h : separator ∉ a) :
    afterSep (a ++ separator :: b) = b := by
  unfold afterSep
  induction a with
  | nil => simp
  | cons x t ih =>
    have hx : ¬ x = separator := fun e => h (by simp [e])
    have ht : separator ∉ t := fun e => h (List.mem_cons_of_mem _ e)
    simp only [List.cons_append]
    rw [List.dropWhile_cons_of_pos (by simp [hx])]
    exact ih ht

theorem split_at_sep (l : Str) (h : separator ∈ l) :
    ∃ a b, l = a ++ separator :: b ∧ separator ∉ a := by
  induction l with
  | nil => simp at h
  | cons x t ih =>
    by_cases hx : x = separator
    · exact ⟨[], t, by simp [hx], by simp⟩
    · have ht : separator ∈ t := by
        rcases List.mem_cons.1 h with e | e
        · exact absurd e.symm hx
        · exact e
      obtain ⟨a, b, hab, ha⟩ := ih ht
      refine ⟨x :: a, b, by simp [hab], ?_⟩
      intro hm
      rcases List.mem_cons.1 hm with e | e
      · exact hx e.symm
      · exact ha e

theorem Bracketed_iff (line : Str) :
    Bracketed line ↔ ∃ n, line = '[' :: (n ++ [']']) := by
  constructor
  · intro ⟨h1, h2⟩
    cases line with
    | nil => simp at h1
    | cons a t =>
      simp only [List.head?_cons, Option.some.injEq] at h1
      subst h1
      cases t with
      | nil => simp at h2
      | cons b t' =>
        rw [List.getLast?_cons_cons] at h2
        obtain ⟨ys, hys⟩ := List.getLast?_eq_some_iff.1 h2
        exact ⟨ys, by rw [hys]⟩
  · rintro ⟨n, rfl⟩
    constructor
    · rfl
    · rw [← List.cons_append, List.getLast?_concat]

theorem header_name_code (n : Str) :
    (('[' :: (n ++ [']'])).take (('[' :: (n ++ [']'])).length - 1)).drop 1 = n := by
  simp

theorem header_name_spec (n : Str) : ('[' :: (n ++ [']'])).tail.dropLast = n := by
  simp

/-! ## The parser loop, line by line -/

theorem lineItem_header (n : Str) (hn : n ≠ []) :
    lineItem ('[' :: (n ++ [']'])) = some (Item.header n) := by
  have hb : Bracketed ('[' :: (n ++ [']'])) := (Bracketed_iff _).2 ⟨n, rfl⟩
  unfold lineItem
  rw [if_pos hb, header_name_spec, if_neg hn]

theorem lineItem_split (a b : Str) (ha : separator ∉ a)
    (hb : ¬ Bracketed (a ++ separator :: b)) :
    lineItem (a ++ separator :: b) =
      if TrimSpace a = [] ∨ TrimSpace b = [] then none
      else some (Item.entry (TrimSpace a) (TrimSpace b)) := by
  unfold lineItem
  rw [if_neg hb, if_pos (by simp), beforeSep_append a b ha, afterSep_append a b ha]

/-- One loop iteration of `parse` reads the trimmed line by the grammar. -/
theorem parseLine_eq (ini : INI) (cur raw : Str) :
    parseLine ini cur raw =
      if Skipped (TrimSpace raw) then Res.ok (ini, cur)
      else
        match lineItem (TrimSpace raw) with
        | none => Res.error Err.ErrFormat
        | some it => Res.ok (applyItem (ini, cur) it) := by
  unfold parseLine
  generalize TrimSpace raw = line
  by_cases hs : Skipped line
  · have h1 : line.length = 0 ∨ HasPrefix line comment = true := by
      rcases hs with h | h
      · left; simp [h]
      · right; simp [HasPrefix, h]
    simp only [if_pos h1, if_pos hs]
  · have h1 : ¬ (line.length = 0 ∨ HasPrefix line comment = true) := by
      intro h
      apply hs
      rcases h with h | h
      · left; exact List.length_eq_zero.1 h
      · right; simpa [HasPrefix] using h
    simp only [if_neg h1, if_neg hs]
    by_cases hb : Bracketed line
    · obtain ⟨n, rfl⟩ := (Bracketed_iff _).1 hb
      have hb' : ('[' :: (n ++ [']'])).head? = some '[' ∧
          ('[' :: (n ++ [']'])).getLast? = some ']' := hb
      rw [if_pos hb', header_name_code]
      by_cases hn : n = []
      · subst hn
        have hb2 : Bracketed ['[', ']'] := hb
        simp [lineItem, hb2]
      · have hl : ¬ n.length = 0 := fun e => hn (List.length_eq_zero.1 e)
        rw [if_neg hl, lineItem_header n hn]
        rfl
    · have hb' : ¬ (line.head? = some '[' ∧ line.getLast? = some ']') := hb
      rw [if_neg hb']
      by_cases hsep : separator ∈ line
      · obtain ⟨a, b, rfl, ha⟩ := split_at_sep line hsep
        rw [Index_append a b separator ha, lineItem_split a b ha hb]
        have e1 : (a ++ separator :: b).take a.length = a := by simp
        have e2 : (a ++ separator :: b).drop (a.length + 1) = b := by
          rw [List.drop_append_eq_append_drop]
          simp
        simp only [e1, e2, List.length_eq_zero]
        by_cases he : TrimSpace a = [] ∨ TrimSpace b = []
        · simp only [if_pos he]
        · simp only [if_neg he]
          rfl
      · rw [(Index_eq_none_iff line separator).2 hsep]
        simp [lineItem, hb, hsep]

theorem parseLoop_eq_itemLoop (lines : List Str) : ∀ (ini : INI) (cur : Str),
    parseLoop ini cur lines =
      itemLoop (ini, cur)
        (((lines.map TrimSpace).filter (fun l => ¬ Skipped l)).map lineItem) := by
  induction lines with
  | nil => intro ini cur; rfl
  | cons raw rest ih =>
    intro ini cur
    unfold parseLoop
    rw [parseLine_eq]
    by_cases hs : Skipped (TrimSpace raw)
    · simp only [if_pos hs, List.map_cons]
      rw [List.filter_cons_of_neg (by simpa using hs)]
      exact ih ini cur
    · simp only [if_neg hs, List.map_cons]
      rw [List.filter_cons_of_pos (by simpa using hs)]
      cases hi : lineItem (TrimSpace raw) with
      | none => simp [itemLoop, hi]
      | some it =>
        simp only [List.map_cons, hi, itemLoop]
        exact ih _ _

theorem ParseString_eq_itemLoop (s : Str) :
    ParseString s = itemLoop (New, defaultSection) ((significantLines s).map lineItem) := by
  unfold ParseString parse significantLines
  rw [parseLoop_eq_itemLoop]
  rfl

theorem itemLoop_error_iff (l : List (Option Item)) : ∀ (st : INI × Str) (e : Err),
    itemLoop st l = Res.error e ↔ e = Err.ErrFormat ∧ none ∈ l := by
  induction l with
  | nil => intro st e; simp [itemLoop]
  | cons x t ih =>
    intro st e
    cases x with
    | none =>
      simp only [itemLoop, Res.error.injEq, List.mem_cons, true_or, and_true]
      exact eq_comm
    | some it =>
      simp only [itemLoop, List.mem_cons]
      rw [ih]
      simp

theorem itemLoop_some (items : List Item) : ∀ (st : INI × Str),
    itemLoop st (items.map some) = Res.ok (items.foldl applyItem st).1 := by
  induction items with
  | nil => intro st; rfl
  | cons it t ih =>
    intro st
    simp only [List.map_cons, itemLoop, List.foldl_cons]
    exact ih _

theorem all_some_of_not_mem (l : List (Option Item)) (h : none ∉ l) :
    ∃ items : List Item, l = items.map some := by
  induction l with
  | nil => exact ⟨[], rfl⟩
  | cons x t ih =>
    cases x with
    | none => simp at h
    | some it =>
      obtain ⟨items, hi⟩ := ih (fun e => h (List.mem_cons_of_mem _ e))
      exact ⟨it :: items, by simp [hi]⟩

/-! ## Malformed lines -/

theorem not_Bracketed_of_blank_before (a b : Str) (ha : Blank a) :
    ¬ Bracketed (a ++ separator :: b) := by
  intro ⟨h1, _⟩
  cases a with
  | nil =>
    simp only [List.nil_append, List.head?_cons, Option.some.injEq] at h1
    exact absurd h1 (by decide)
  | cons x t =>
    simp only [List.cons_append, List.head?_cons, Option.some.injEq] at h1
    have := ha x (List.mem_cons_self x t)
    rw [h1] at this
    exact absurd this (by decide)

theorem not_Bracketed_of_blank_after (a b : Str) (hb : Blank b) :
    ¬ Bracketed (a ++ separator :: b) := by
  intro ⟨_, h2⟩
  rw [List.getLast?_append_cons] at h2
  cases hbl : b.getLast? with
  | none =>
    have : b = [] := List.getLast?_eq_none_iff.1 hbl
    subst this
    simp only [List.getLast?_singleton, Option.some.injEq] at h2
    exact absurd h2 (by decide)
  | some c =>
    obtain ⟨ys, hys⟩ := List.getLast?_eq_some_iff.1 hbl
    subst hys
    rw [← List.cons_append, List.getLast?_concat] at h2
    simp only [Option.some.injEq] at h2
    have := hb c (by simp)
    rw [h2] at this
    exact absurd this (by decide)

/-- The malformed lines are the significant lines that the grammar does not
read. -/
theorem Malformed_iff (t : Str) : Malformed t ↔ ¬ Skipped t ∧ lineItem t = none := by
  constructor
  · rintro ⟨h1, h2, h3⟩
    refine ⟨fun hs => hs.elim h1 h2, ?_⟩
    rcases h3 with h | ⟨hb, hs⟩ | ⟨hs, hbl⟩ | ⟨hs, hbl⟩
    · subst h
      have hb2 : Bracketed ['[', ']'] := (Bracketed_iff _).2 ⟨[], rfl⟩
      simp [lineItem, hb2]
    · simp [lineItem, hb, hs]
    · obtain ⟨a, b, rfl, ha⟩ := split_at_sep t hs
      rw [beforeSep_append a b ha] at hbl
      rw [lineItem_split a b ha (not_Bracketed_of_blank_before a b hbl)]
      rw [if_pos (Or.inl ((TrimSpace_eq_nil_iff a).2 hbl))]
    · obtain ⟨a, b, rfl, ha⟩ := split_at_sep t hs
      rw [afterSep_append a b ha] at hbl
      rw [lineItem_split a b ha (not_Bracketed_of_blank_after a b hbl)]
      rw [if_pos (Or.inr ((TrimSpace_eq_nil_iff b).2 hbl))]
  · rintro ⟨hs, hi⟩
    refine ⟨fun e => hs (Or.inl e), fun e => hs (Or.inr e), ?_⟩
    by_cases hb : Bracketed t
    · left
      obtain ⟨n, rfl⟩ := (Bracketed_iff _).1 hb
      by_cases hn : n = []
      · subst hn; rfl
      · rw [lineItem_header n hn] at hi
        exact absurd hi (by simp)
    · right
      by_cases hsep : separator ∈ t
      · right
        obtain ⟨a, b, rfl, ha⟩ := split_at_sep t hsep
        rw [lineItem_split a b ha hb] at hi
        rw [beforeSep_append a b ha, afterSep_append a b ha]
        by_cases he : TrimSpace a = [] ∨ TrimSpace b = []
        · rcases he with he | he
          · exact Or.inl ⟨hsep, (TrimSpace_eq_nil_iff a).1 he⟩
          · exact Or.inr ⟨hsep, (TrimSpace_eq_nil_iff b).1 he⟩
        · rw [if_neg he] at hi
          exact absurd hi (by simp)
      · exact Or.inl ⟨hb, hsep⟩

theorem none_mem_items_iff (s : Str) :
    none ∈ (significantLines s).map lineItem ↔
      ∃ l ∈ Split s lineBreak, Malformed (TrimSpace l) := by
  unfold significantLines
  simp only [List.mem_map, List.mem_filter, decide_eq_true_eq]
  constructor
  · rintro ⟨t, ⟨⟨l, hl, rfl⟩, hs⟩, hi⟩
    exact ⟨l, hl, (Malformed_iff _).2 ⟨hs, hi⟩⟩
  · rintro ⟨l, hl, hm⟩
    obtain ⟨hs, hi⟩ := (Malformed_iff _).1 hm
    exact ⟨TrimSpace l, ⟨⟨l, hl, rfl⟩, hs⟩, hi⟩

/-- C2: `ParseString(s)` returns `ErrFormat` if and only if some line of `s`,
once trimmed, is malformed (not empty, not a comment, and `[]`, or neither
bracketed nor holding `=`, or with only white space before or after its first
`=`); it returns a document and no error exactly in the other case.  The texts
`?`, `@`, `=` and `[]` fail, `a = b` and `#a = b` succeed. -/
theorem ParseString_error_iff (s : Str) :
    (ParseString s = Res.error Err.ErrFormat ↔
      ∃ l ∈ Split s lineBreak, Malformed (TrimSpace l)) ∧
    ((∃ d, ParseString s = Res.ok d) ↔
      ¬ ∃ l ∈ Split s lineBreak, Malformed (TrimSpace l)) ∧
    ParseString "?".toList = Res.error Err.ErrFormat ∧
    ParseString "@".toList = Res.error Err.ErrFormat ∧
    ParseString "=".toList = Res.error Err.ErrFormat ∧
    ParseString "[]".toList = Res.error Err.ErrFormat ∧
    ParseString "a = b".toList = Res.ok [([], [("a".toList, "b".toList)])] ∧
    ParseString "#a = b".toList = Res.ok [([], [])] := by
  have key : ParseString s = Res.error Err.ErrFormat ↔
      ∃ l ∈ Split s lineBreak, Malformed (TrimSpace l) := by
    rw [ParseString_eq_itemLoop, itemLoop_error_iff, none_mem_items_iff]
    simp
  refine ⟨key, ?_, by decide, by decide, by decide, by decide, by decide, by decide⟩
  rw [← key]
  constructor
  · rintro ⟨d, hd⟩ he
    rw [hd] at he
    exact absurd he (by simp)
  · intro hne
    cases hp : ParseString s with
    | ok d => exact ⟨d, rfl⟩
    | error e =>
      exfalso
      apply hne
      have := hp
      rw [ParseString_eq_itemLoop, itemLoop_error_iff] at this
      rw [hp, this.1]

/-! ## Lines of a text -/

theorem Split_ne_nil (l : Str) (c : Char) : Split l c ≠ [] := by
  induction l with
  | nil => simp [Split]
  | cons x t ih =>
    unfold Split
    by_cases h : x = c
    · simp [h]
    · rw [if_neg h]
      cases hs : Split t c with
      | nil => simp
      | cons a b => simp

theorem Split_of_not_mem (l : Str) (c : Char) (h : c ∉ l) : Split l c = [l] := by
  induction l with
  | nil => rfl
  | cons x t ih =>
    have hx : ¬ x = c := fun e => h (by simp [e])
    have ht : c ∉ t := fun e => h (List.mem_cons_of_mem _ e)
    unfold Split
    rw [if_neg hx, ih ht]

theorem Split_append (a b : Str) (c : Char) :
    Split (a ++ c :: b) c = Split a c ++ Split b c := by
  induction a with
  | nil => simp [Split]
  | cons x t ih =>
    rw [List.cons_append]
    by_cases hx : x = c
    · rw [Split, if_pos hx, ih, Split, if_pos hx]
      rfl
    · rw [Split, if_neg hx, ih, Split, if_neg hx]
      cases hs : Split t c with
      | nil => exact absurd hs (Split_ne_nil t c)
      | cons l ls => rfl

theorem Split_line (l rest : Str) (c : Char) (h : c ∉ l) :
    Split (l ++ c :: rest) c = l :: Split rest c := by
  rw [Split_append, Split_of_not_mem l c h]
  rfl

theorem Trimmed_iff (t : Str) : Trimmed t ↔ TrimSpace t = t :=
  ⟨TrimSpace_of_Trimmed t, fun h => h ▸ Trimmed_TrimSpace t⟩

theorem Blank_of_SpacesTabs (w : Str) (h : SpacesTabs w) : Blank w := by
  intro c hc
  rcases h c hc with e | e <;> subst e <;> decide

theorem not_mem_of_Blank (w : Str) (c : Char) (hc : isSpace c = false) (h : Blank w) :
    c ∉ w := by
  intro hm
  have := h c hm
  rw [hc] at this
  exact absurd this (by simp)

theorem Trimmed_between (k mid v : Str) (hk : Trimmed k) (hv : Trimmed v)
    (hk0 : k ≠ []) (hv0 : v ≠ []) : Trimmed (k ++ mid ++ v) := by
  constructor
  · intro c hc
    rw [List.append_assoc, List.head?_append_of_ne_nil _ hk0] at hc
    exact hk.1 c hc
  · intro c hc
    rw [List.getLast?_append_of_ne_nil _ hv0] at hc
    exact hv.2 c hc

/-- A key, white space, `=`, white space and a value read as the entry of the
key and the value. -/
theorem lineItem_entry (k v w2 w3 : Str) (hk : Trimmed k) (hk0 : k ≠ [])
    (hks : separator ∉ k) (hv : Trimmed v) (hv0 : v ≠ [])
    (hnb : ¬ (k.head? = some '[' ∧ v.getLast? = some ']'))
    (h2 : Blank w2) (h3 : Blank w3) :
    lineItem (k ++ w2 ++ separator :: (w3 ++ v)) = some (Item.entry k v) := by
  have hsep : separator ∉ k ++ w2 := by
    intro hm
    rcases List.mem_append.1 hm with e | e
    · exact hks e
    · exact not_mem_of_Blank w2 separator (by decide) h2 e
  have hb : ¬ Bracketed (k ++ w2 ++ separator :: (w3 ++ v)) := by
    intro ⟨b1, b2⟩
    apply hnb
    constructor
    · rw [List.append_assoc, List.head?_append_of_ne_nil _ hk0] at b1
      exact b1
    · rw [List.getLast?_append_cons, ← List.cons_append,
        List.getLast?_append_of_ne_nil _ hv0] at b2
      exact b2
  rw [lineItem_split _ _ hsep hb]
  have e1 : TrimSpace (k ++ w2) = k := by
    have := TrimSpace_pad [] k w2 hk (by intro c hc; simp at hc) h2
    simpa using this
  have e2 : TrimSpace (w3 ++ v) = v := by
    have := TrimSpace_pad w3 v [] hv h3 (by intro c hc; simp at hc)
    simpa using this
  rw [e1, e2, if_neg (by simp [hk0, hv0])]

/-- C6: two texts with the same significant lines (every line trimmed, the
empty lines and the lines starting with `#` dropped) have the same parse
result, document or error.  The texts `#a = b` and `     #a = b` parse to the
empty default section alone, and inserting a comment line, whatever it looks
like, changes nothing. -/
theorem ParseString_significantLines (s1 s2 : Str)
    (h : significantLines s1 = significantLines s2) :
    ParseString s1 = ParseString s2 ∧
    ParseString "#a = b".toList = Res.ok [([], [])] ∧
    ParseString "     #a = b".toList = Res.ok [([], [])] ∧
    (∀ a b c : Str, lineBreak ∉ c → (TrimSpace c).head? = some comment →
      ParseString (a ++ lineBreak :: (c ++ lineBreak :: b)) =
        ParseString (a ++ lineBreak :: b)) := by
  refine ⟨?_, by decide, by decide, ?_⟩
  · rw [ParseString_eq_itemLoop, ParseString_eq_itemLoop, h]
  · intro a b c hc hcom
    rw [ParseString_eq_itemLoop, ParseString_eq_itemLoop]
    have hsk : Skipped (TrimSpace c) := Or.inr hcom
    have : significantLines (a ++ lineBreak :: (c ++ lineBreak :: b)) =
        significantLines (a ++ lineBreak :: b) := by
      unfold significantLines
      rw [Split_append, Split_line c b lineBreak hc, Split_append]
      simp only [List.map_append, List.map_cons, List.filter_append]
      rw [List.filter_cons_of_neg (by simpa using hsk)]
    rw [this]

/-- Two texts that differ in blank lines, a comment and surrounding white
space. -/
theorem ParseString_significantLines_witness :
    ParseString "a = b\n[s]".toList = ParseString "  a = b \n\n#[x]\n[s]\n".toList :=
  (ParseString_significantLines "a = b\n[s]".toList "  a = b \n\n#[x]\n[s]\n".toList
    (by decide)).1

/-- C7: a key `k` (not empty, without `=`, line break or surrounding white
space, not starting with `#`) and a value `v` (not empty, without line break or
surrounding white space), not such that `k` starts with `[` while `v` ends with
`]`, written with any spaces and tabs `w1` to `w4` around them and around the
`=`, parse to the document whose only section is the default one, holding
exactly `k` with value `v`. -/
theorem ParseString_key_value (k v w1 w2 w3 w4 : Str)
    (hk0 : k ≠ []) (hks : separator ∉ k) (hkn : lineBreak ∉ k) (hkt : Trimmed k)
    (hkc : k.head? ≠ some comment)
    (hv0 : v ≠ []) (hvn : lineBreak ∉ v) (hvt : Trimmed v)
    (hnb : ¬ (k.head? = some '[' ∧ v.getLast? = some ']'))
    (h1 : SpacesTabs w1) (h2 : SpacesTabs w2) (h3 : SpacesTabs w3) (h4 : SpacesTabs w4) :
    ParseString (w1 ++ k ++ w2 ++ separator :: (w3 ++ v ++ w4)) =
      Res.ok [(defaultSection, [(k, v)])] := by
  have b1 := Blank_of_SpacesTabs w1 h1
  have b2 := Blank_of_SpacesTabs w2 h2
  have b3 := Blank_of_SpacesTabs w3 h3
  have b4 := Blank_of_SpacesTabs w4 h4
  have hnlw : ∀ w, SpacesTabs w → lineBreak ∉ w := by
    intro w hw hm
    rcases hw _ hm with e | e <;> exact absurd e (by decide)
  obtain ⟨line, hline⟩ : ∃ line, line = k ++ w2 ++ separator :: (w3 ++ v) := ⟨_, rfl⟩
  have htext : w1 ++ k ++ w2 ++ separator :: (w3 ++ v ++ w4) = w1 ++ line ++ w4 := by
    simp [hline]
  have hno : lineBreak ∉ w1 ++ line ++ w4 := by
    rw [hline]
    simp only [List.mem_append, List.mem_cons, not_or]
    exact ⟨⟨hnlw w1 h1, ⟨⟨hkn, hnlw w2 h2⟩, by decide, hnlw w3 h3, hvn⟩⟩, hnlw w4 h4⟩
  have htrim : Trimmed line := by
    have := Trimmed_between k (w2 ++ separator :: w3) v hkt hvt hk0 hv0
    simpa [hline] using this
  have hns : ¬ Skipped line := by
    rintro (e | e)
    · rw [hline] at e
      simp at e
    · rw [hline, List.append_assoc, List.head?_append_of_ne_nil _ hk0] at e
      exact hkc e
  have hsig : significantLines (w1 ++ line ++ w4) = [line] := by
    unfold significantLines
    rw [Split_of_not_mem _ _ hno]
    simp only [List.map_cons, List.map_nil]
    rw [TrimSpace_pad w1 line w4 htrim b1 b4]
    rw [List.filter_cons_of_pos (by simpa using hns)]
    rfl
  rw [htext, ParseString_eq_itemLoop, hsig]
  simp only [List.map_cons, List.map_nil]
  rw [hline, lineItem_entry k v w2 w3 hkt hk0 hks hvt hv0 hnb b2 b3]
  simp [itemLoop, applyItem, setCurrent, New, mset, mget, defaultSection]

/-- The entry `a = b`, indented by a tab and followed by a space. -/
theorem ParseString_key_value_witness :
    ParseString ([Char.ofNat 9] ++ "a".toList ++ " ".toList ++
        separator :: (" ".toList ++ "b".toList ++ " ".toList)) =
      Res.ok [(defaultSection, [("a".toList, "b".toList)])] :=
  ParseString_key_value "a".toList "b".toList [Char.ofNat 9] " ".toList " ".toList
    " ".toList (by decide) (by decide) (by decide) ((Trimmed_iff _).2 (by decide))
    (by decide) (by decide) (by decide) ((Trimmed_iff _).2 (by decide)) (by decide)
    (by unfold SpacesTabs; decide) (by unfold SpacesTabs; decide)
    (by unfold SpacesTabs; decide) (by unfold SpacesTabs; decide)

/-! ## What the parser stores -/

theorem mget_append {β : Type} (l1 l2 : List (Str × β)) (k : Str) :
    mget (l1 ++ l2) k = (mget l1 k).or (mget l2 k) := by
  induction l1 with
  | nil => simp [mget]
  | cons e t ih =>
    obtain ⟨a, b⟩ := e
    by_cases h : a = k
    · simp [mget, h]
    · simp [mget, h, ih]

theorem find_mset_ne (ini : INI) (s n k : Str) (m : kvMap) (h : s ≠ n) :
    find (mset ini s m) n k = find ini n k := by
  unfold find
  rw [mget_mset_ne _ _ _ _ h]

/-- The state after a run of items, from a state whose current section holds
`m0`: a section named by a header holds the entries after the last such
header; the current section, if no header names it, holds `m0` overwritten by
the leading entries; the other sections are as before. -/
theorem foldl_applyItem_find (items : List Item) :
    ∀ (ini : INI) (cur : Str) (m0 : kvMap), mget ini cur = some m0 →
      ∀ n k, find (items.foldl applyItem (ini, cur)).1 n k =
        match mget (headerBlocks items).reverse n with
        | some es => some (lastValue es k)
        | none =>
          if n = cur then some ((lastValue (leadingEntries items) k).or (mget m0 k))
          else find ini n k := by
  induction items with
  | nil =>
    intro ini cur m0 hm n k
    simp only [List.foldl_nil, headerBlocks, List.reverse_nil, mget, leadingEntries,
      lastValue, Option.none_or]
    by_cases hn : n = cur
    · subst hn
      simp [find, hm]
    · simp [hn]
  | cons it t ih =>
    intro ini cur m0 hm n k
    cases it with
    | header h =>
      have ih' := ih (mset ini h []) h [] (mget_mset_same _ _ _) n k
      simp only [List.foldl_cons, applyItem]
      rw [ih']
      simp only [headerBlocks, List.reverse_cons, mget_append, leadingEntries, lastValue,
        List.reverse_nil, mget, Option.none_or, Option.or_none]
      cases hR : mget (headerBlocks t).reverse n with
      | some es => simp
      | none =>
        by_cases hn : n = h
        · subst hn
          simp
        · have hn' : ¬ h = n := fun e => hn e.symm
          simp only [Option.none_or, if_neg hn, if_neg hn']
          rw [find_mset_ne _ _ _ _ _ hn']
          by_cases hc : n = cur
          · subst hc
            simp [find, hm]
          · simp [hc]
    | entry a b =>
      have hm' : mget (setCurrent ini cur a b) cur = some (mset m0 a b) := by
        unfold setCurrent
        rw [mget_mset_same, hm]
        rfl
      have ih' := ih (setCurrent ini cur a b) cur (mset m0 a b) hm' n k
      simp only [List.foldl_cons, applyItem]
      rw [ih']
      simp only [headerBlocks, leadingEntries, lastValue, List.reverse_cons, mget_append]
      cases hR : mget (headerBlocks t).reverse n with
      | some es => simp
      | none =>
        by_cases hc : n = cur
        · subst hc
          simp only [if_true]
          congr 1
          by_cases hk : a = k
          · subst hk
            cases mget (leadingEntries t).reverse a <;> simp [mget, mget_mset_same]
          · cases mget (leadingEntries t).reverse k <;>
              simp [mget, hk, mget_mset_ne _ _ _ _ hk]
        · have hc' : ¬ cur = n := fun e => hc e.symm
          simp only [if_neg hc]
          unfold setCurrent
          rw [find_mset_ne _ _ _ _ _ hc']

/-- The document parsed from a text whose significant lines read as `items`. -/
theorem ParseString_find (s : Str) (items : List Item)
    (h : (significantLines s).map lineItem = items.map some) :
    ∃ d, ParseString s = Res.ok d ∧
      ∀ n k, find d n k =
        match mget (headerBlocks items).reverse n with
        | some es => some (lastValue es k)
        | none =>
          if n = defaultSection then some (lastValue (leadingEntries items) k)
          else none := by
  refine ⟨(items.foldl applyItem (New, defaultSection)).1, ?_, ?_⟩
  · rw [ParseString_eq_itemLoop, h, itemLoop_some]
  · intro n k
    rw [foldl_applyItem_find items New defaultSection [] rfl n k]
    cases hR : mget (headerBlocks items).reverse n with
    | some es => rfl
    | none =>
      by_cases hn : n = defaultSection
      · simp [hn, mget]
      · have hn' : ¬ defaultSection = n := fun e => hn e.symm
        simp [hn, find, New, mget, hn']

theorem mget_of_mem_nodup {β : Type} (l : List (Str × β)) (hnd : (keys l).Nodup)
    (n : Str) (e : β) (h : (n, e) ∈ l) : mget l n = some e := by
  induction l with
  | nil => simp at h
  | cons x t ih =>
    obtain ⟨a, b⟩ := x
    simp only [keys, List.map_cons, List.nodup_cons] at hnd
    rcases List.mem_cons.1 h with e1 | e1
    · simp only [Prod.mk.injEq] at e1
      simp [mget, e1.1, e1.2]
    · have hne : ¬ a = n := by
        intro e2
        subst e2
        exact hnd.1 (List.mem_map.2 ⟨(a, e), e1, rfl⟩)
      simp only [mget, if_neg hne]
      exact ih hnd.2 e1

theorem mem_of_mget {β : Type} (l : List (Str × β)) (n : Str) (e : β)
    (h : mget l n = some e) : (n, e) ∈ l := by
  induction l with
  | nil => simp [mget] at h
  | cons x t ih =>
    obtain ⟨a, b⟩ := x
    by_cases hk : a = n
    · subst hk
      simp only [mget, if_true, Option.some.injEq] at h
      subst h
      exact List.mem_cons_self _ _
    · simp only [mget, if_neg hk] at h
      exact List.mem_cons_of_mem _ (ih h)

theorem keys_reverse {β : Type} (l : List (Str × β)) : keys l.reverse = (keys l).reverse := by
  simp [keys]

theorem mem_keys_headerBlocks (l : List Item) (n : Str) :
    n ∈ keys (headerBlocks l) ↔ Item.header n ∈ l := by
  induction l with
  | nil => simp [headerBlocks, keys]
  | cons it t ih =>
    cases it with
    | header h =>
      simp only [keys] at ih
      simp only [headerBlocks, keys, List.map_cons, List.mem_cons, ih, Item.header.injEq]
    | entry a b =>
      simp only [keys] at ih
      simp only [headerBlocks, keys, ih, List.mem_cons]
      simp

theorem leadingEntries_append (l1 l2 : List Item) (n : Str) :
    leadingEntries (l1 ++ Item.header n :: l2) = leadingEntries l1 := by
  induction l1 with
  | nil => simp [leadingEntries]
  | cons it t ih =>
    cases it with
    | header h => simp [leadingEntries]
    | entry a b => simp [leadingEntries, ih]

theorem headerBlocks_append (l1 l2 : List Item) (n : Str) :
    headerBlocks (l1 ++ Item.header n :: l2) =
      headerBlocks l1 ++ (n, leadingEntries l2) :: headerBlocks l2 := by
  induction l1 with
  | nil => simp [headerBlocks]
  | cons it t ih =>
    cases it with
    | header h => simp [headerBlocks, ih, leadingEntries_append]
    | entry a b => simp [headerBlocks, ih]

theorem lineItem_header_ne (t n : Str) (h : lineItem t = some (Item.header n)) : n ≠ [] := by
  unfold lineItem at h
  by_cases hb : Bracketed t
  · rw [if_pos hb] at h
    by_cases hn : t.tail.dropLast = []
    · rw [if_pos hn] at h
      exact absurd h (by simp)
    · rw [if_neg hn] at h
      simp only [Option.some.injEq, Item.header.injEq] at h
      rw [← h]
      exact hn
  · rw [if_neg hb] at h
    by_cases hs : separator ∈ t
    · rw [if_pos hs] at h
      by_cases he : TrimSpace (beforeSep t) = [] ∨ TrimSpace (afterSep t) = []
      · rw [if_pos he] at h
        exact absurd h (by simp)
      · rw [if_neg he] at h
        simp at h
    · rw [if_neg hs] at h
      exact absurd h (by simp)

theorem no_empty_header (lines : List Str) (items : List Item)
    (h : lines.map lineItem = items.map some) : Item.header [] ∉ items := by
  intro hm
  have : some (Item.header []) ∈ lines.map lineItem := by
    rw [h]
    exact List.mem_map.2 ⟨_, hm, rfl⟩
  obtain ⟨t, _, ht⟩ := List.mem_map.1 this
  exact lineItem_header_ne t [] ht rfl

/-- C3: a text whose significant lines are all well-formed (they read as
`items`) and in which no header name occurs twice parses to a document whose
sections are the default section and one section per header; the default
section maps the keys of the entries before the first header, and the section
of a header the keys of the entries between that header and the next one, to
their values, the last entry for a key winning (so a header followed by no
entry gives an empty section).  The sample text with the header `first`
parses to `{"": {age: 18, gender: male}, first: {firstk: firstv}}`. -/
theorem ParseString_sections (s : Str) (items : List Item)
    (h : (significantLines s).map lineItem = items.map some)
    (hnd : (keys (headerBlocks items)).Nodup) :
    ∃ d, ParseString s = Res.ok d ∧
      (∀ n, (mget d n).isSome ↔ n = defaultSection ∨ n ∈ keys (headerBlocks items)) ∧
      (∀ k, find d defaultSection k = some (lastValue (leadingEntries items) k)) ∧
      (∀ n es, (n, es) ∈ headerBlocks items → ∀ k, find d n k = some (lastValue es k)) ∧
      ParseString "age = 18\ngender = male\n\n[first]\nfirstk = firstv\n".toList =
        Res.ok [([], [("age".toList, "18".toList), ("gender".toList, "male".toList)]),
          ("first".toList, [("firstk".toList, "firstv".toList)])] := by
  obtain ⟨d, hd, hf⟩ := ParseString_find s items h
  have hdef : mget (headerBlocks items).reverse defaultSection = none := by
    rw [mget_eq_none_iff, keys_reverse, List.mem_reverse, mem_keys_headerBlocks]
    exact no_empty_header _ _ h
  refine ⟨d, hd, ?_, ?_, ?_, by decide⟩
  · intro n
    have h1 : (mget d n).isSome = (find d n []).isSome := by
      unfold find
      cases mget d n <;> rfl
    have h2 : n ∈ keys (headerBlocks items) ↔
        (mget (headerBlocks items).reverse n).isSome = true := by
      rw [mget_isSome_iff, keys_reverse, List.mem_reverse]
    rw [h1, hf n [], h2]
    cases hR : mget (headerBlocks items).reverse n with
    | some es => simp
    | none =>
      by_cases hn : n = defaultSection
      · simp [hn]
      · simp [hn]
  · intro k
    rw [hf defaultSection k, hdef]
    simp
  · intro n es hmem k
    have : mget (headerBlocks items).reverse n = some es :=
      mget_of_mem_nodup _ (by rw [keys_reverse]; exact List.nodup_reverse.2 hnd) n es
        (List.mem_reverse.2 hmem)
    rw [hf n k, this]

/-- The sample text with three sections, whose items and blocks are computed. -/
theorem ParseString_sections_witness :
    ∃ d, ParseString "a = 1\n[s]\nb = 2\nb = 3\n[t]\n".toList = Res.ok d ∧
      (∀ n, (mget d n).isSome ↔ n = defaultSection ∨
        n ∈ keys (headerBlocks [Item.entry "a".toList "1".toList, Item.header "s".toList,
          Item.entry "b".toList "2".toList, Item.entry "b".toList "3".toList,
          Item.header "t".toList])) ∧
      (∀ k, find d defaultSection k = some (lastValue (leadingEntries
        [Item.entry "a".toList "1".toList, Item.header "s".toList,
          Item.entry "b".toList "2".toList, Item.entry "b".toList "3".toList,
          Item.header "t".toList]) k)) ∧
      (∀ n es, (n, es) ∈ headerBlocks [Item.entry "a".toList "1".toList,
          Item.header "s".toList, Item.entry "b".toList "2".toList,
          Item.entry "b".toList "3".toList, Item.header "t".toList] →
        ∀ k, find d n k = some (lastValue es k)) ∧
      ParseString "age = 18\ngender = male\n\n[first]\nfirstk = firstv\n".toList =
        Res.ok [([], [("age".toList, "18".toList), ("gender".toList, "male".toList)]),
          ("first".toList, [("firstk".toList, "firstv".toList)])] :=
  ParseString_sections "a = 1\n[s]\nb = 2\nb = 3\n[t]\n".toList
    [Item.entry "a".toList "1".toList, Item.header "s".toList,
      Item.entry "b".toList "2".toList, Item.entry "b".toList "3".toList,
      Item.header "t".toList] (by decide) (by decide)

/-- C4 (as the code behaves): in a text whose significant lines are all
well-formed, a header `[n]` that appears again starts the section `n` afresh;
after parsing, the section `n` holds exactly the entries that follow the last
header `[n]` up to the next header, the last entry for a key winning, and
nothing of the earlier occurrences. -/
theorem duplicate_header_last_wins (s : Str) (items pre post : List Item) (n : Str)
    (h : (significantLines s).map lineItem = items.map some)
    (hi : items = pre ++ Item.header n :: post) (hlast : Item.header n ∉ post) :
    ∃ d, ParseString s = Res.ok d ∧
      ∀ k, find d n k = some (lastValue (leadingEntries post) k) := by
  obtain ⟨d, hd, hf⟩ := ParseString_find s items h
  refine ⟨d, hd, ?_⟩
  intro k
  have hpost : mget (headerBlocks post).reverse n = none := by
    rw [mget_eq_none_iff, keys_reverse, List.mem_reverse, mem_keys_headerBlocks]
    exact hlast
  have : mget (headerBlocks items).reverse n = some (leadingEntries post) := by
    rw [hi, headerBlocks_append, List.reverse_append, List.reverse_cons, List.append_assoc,
      mget_append, hpost]
    simp [mget]
  rw [hf n k, this]

/-- The text with the header `[a]` twice: the section `a` ends with `y` only. -/
theorem duplicate_header_last_wins_witness :
    ∃ d, ParseString "[a]\nx=1\n[a]\ny=2".toList = Res.ok d ∧
      ∀ k, find d "a".toList k =
        some (lastValue (leadingEntries [Item.entry "y".toList "2".toList]) k) :=
  duplicate_header_last_wins "[a]\nx=1\n[a]\ny=2".toList
    [Item.header "a".toList, Item.entry "x".toList "1".toList, Item.header "a".toList,
      Item.entry "y".toList "2".toList]
    [Item.header "a".toList, Item.entry "x".toList "1".toList]
    [Item.entry "y".toList "2".toList] "a".toList (by decide) (by decide) (by decide)

/-- C4, the claim as stated fails: after parsing `[a]`, `x=1`, `[a]`, `y=2` the
section `a` is `{y: 2}`; the key `x` of the first occurrence is gone. -/
theorem duplicate_header_not_merged :
    ParseString "[a]\nx=1\n[a]\ny=2".toList =
        Res.ok [([], []), ("a".toList, [("y".toList, "2".toList)])] ∧
      ¬ ∃ d, ParseString "[a]\nx=1\n[a]\ny=2".toList = Res.ok d ∧
        find d "a".toList "x".toList = some (some "1".toList) := by
  have h : ParseString "[a]\nx=1\n[a]\ny=2".toList =
      Res.ok [([], []), ("a".toList, [("y".toList, "2".toList)])] := by decide
  refine ⟨h, ?_⟩
  rintro ⟨d, hd, hx⟩
  rw [h] at hd
  simp only [Res.ok.injEq] at hd
  subst hd
  revert hx
  decide

/-! ## Invariant of parsed documents -/

theorem mem_mset {β : Type} (m : List (Str × β)) (k : Str) (v : β) (e : Str × β)
    (h : e ∈ mset m k v) : e = (k, v) ∨ e ∈ m := by
  induction m with
  | nil =>
    simp only [mset, List.mem_singleton] at h
    exact Or.inl h
  | cons x t ih =>
    obtain ⟨a, b⟩ := x
    by_cases hk : a = k
    · simp only [mset, if_pos hk, List.mem_cons] at h
      rcases h with h | h
      · exact Or.inl h
      · exact Or.inr (List.mem_cons_of_mem _ h)
    · simp only [mset, if_neg hk, List.mem_cons] at h
      rcases h with h | h
      · exact Or.inr (h ▸ List.mem_cons_self _ _)
      · rcases ih h with h' | h'
        · exact Or.inl h'
        · exact Or.inr (List.mem_cons_of_mem _ h')

theorem mem_keys_mset {β : Type} (m : List (Str × β)) (k : Str) (v : β) (n : Str) :
    n ∈ keys (mset m k v) ↔ n = k ∨ n ∈ keys m := by
  rw [← mget_isSome_iff, ← mget_isSome_iff]
  by_cases h : k = n
  · subst h
    simp [mget_mset_same]
  · have h' : ¬ n = k := fun e => h e.symm
    rw [mget_mset_ne _ _ _ _ h]
    simp [h']

theorem keys_mset_nodup {β : Type} (m : List (Str × β)) (k : Str) (v : β)
    (h : (keys m).Nodup) : (keys (mset m k v)).Nodup := by
  induction m with
  | nil => simp [mset, keys]
  | cons x t ih =>
    obtain ⟨a, b⟩ := x
    have h1 : a ∉ keys t := by
      simp only [keys, List.map_cons, List.nodup_cons] at h
      exact h.1
    have h2 : (keys t).Nodup := by
      simp only [keys, List.map_cons, List.nodup_cons] at h
      exact h.2
    by_cases hk : a = k
    · subst hk
      simp only [mset, if_true]
      show (a :: keys t).Nodup
      exact List.nodup_cons.2 ⟨h1, h2⟩
    · simp only [mset, if_neg hk]
      show (a :: keys (mset t k v)).Nodup
      refine List.nodup_cons.2 ⟨?_, ih h2⟩
      rw [mem_keys_mset]
      rintro (e | e)
      · exact hk e
      · exact h1 e

theorem Split_mem_not_mem (s : Str) (c : Char) : ∀ l ∈ Split s c, c ∉ l := by
  induction s with
  | nil =>
    intro l hl
    simp only [Split, List.mem_singleton] at hl
    subst hl
    simp
  | cons x t ih =>
    intro l hl
    unfold Split at hl
    by_cases hx : x = c
    · rw [if_pos hx] at hl
      rcases List.mem_cons.1 hl with e | e
      · subst e; simp
      · exact ih l e
    · rw [if_neg hx] at hl
      cases hs : Split t c with
      | nil => exact absurd hs (Split_ne_nil t c)
      | cons a b =>
        rw [hs] at hl ih
        rcases List.mem_cons.1 hl with e | e
        · subst e
          intro hm
          rcases List.mem_cons.1 hm with e1 | e1
          · exact hx e1.symm
          · exact ih a (List.mem_cons_self _ _) e1
        · exact ih l (List.mem_cons_of_mem _ e)

theorem mem_of_mem_TrimSpace (a : Str) (c : Char) (h : c ∈ TrimSpace a) : c ∈ a := by
  obtain ⟨w1, w2, ha, _, _⟩ := TrimSpace_decompose a
  rw [ha]
  simp [h]

theorem head_TrimSpace (a rest : Str) (ht : Trimmed (a ++ rest)) (hne : TrimSpace a ≠ []) :
    (TrimSpace a).head? = (a ++ rest).head? := by
  obtain ⟨w1, w2, ha, hw1, _⟩ := TrimSpace_decompose a
  cases w1 with
  | nil =>
    rw [List.nil_append] at ha
    conv_rhs => rw [ha]
    rw [List.append_assoc, List.head?_append_of_ne_nil _ hne]
  | cons x w =>
    exfalso
    have h1 : (a ++ rest).head? = some x := by rw [ha]; rfl
    have h2 := ht.1 x h1
    rw [hw1 x (List.mem_cons_self _ _)] at h2
    exact absurd h2 (by simp)

theorem getLast_TrimSpace (pre b : Str) (ht : Trimmed (pre ++ b)) (hne : TrimSpace b ≠ []) :
    (TrimSpace b).getLast? = (pre ++ b).getLast? := by
  obtain ⟨w1, w2, hb, _, hw2⟩ := TrimSpace_decompose b
  cases hl : w2.getLast? with
  | none =>
    have : w2 = [] := List.getLast?_eq_none_iff.1 hl
    subst this
    rw [List.append_nil] at hb
    conv_rhs => rw [hb]
    rw [← List.append_assoc, List.getLast?_append_of_ne_nil _ hne]
  | some x =>
    exfalso
    obtain ⟨ys, hys⟩ := List.getLast?_eq_some_iff.1 hl
    have h1 : (pre ++ b).getLast? = some x := by
      rw [hb, hys, ← List.append_assoc, ← List.append_assoc, List.getLast?_concat]
    have h2 := ht.2 x h1
    rw [hw2 x (by rw [hys]; simp)] at h2
    exact absurd h2 (by simp)

/-- Every item read from a significant line of a text is one that is read back
after being written. -/
theorem lineItem_ok (t : Str) (hs : ¬ Skipped t) (ht : Trimmed t) (hn : lineBreak ∉ t)
    (it : Item) (h : lineItem t = some it) : ItemOK it := by
  by_cases hb : Bracketed t
  · obtain ⟨n, rfl⟩ := (Bracketed_iff _).1 hb
    have hne : n ≠ [] := by
      intro e
      subst e
      have : lineItem ['[', ']'] = none := by decide
      rw [show ('[' :: (([] : Str) ++ [']'])) = ['[', ']'] from rfl, this] at h
      exact absurd h (by simp)
    rw [lineItem_header n hne] at h
    simp only [Option.some.injEq] at h
    subst h
    exact ⟨hne, fun hm => hn (by simp [hm])⟩
  · by_cases hsep : separator ∈ t
    · obtain ⟨a, b, rfl, ha⟩ := split_at_sep t hsep
      rw [lineItem_split a b ha hb] at h
      by_cases he : TrimSpace a = [] ∨ TrimSpace b = []
      · rw [if_pos he] at h
        exact absurd h (by simp)
      · rw [if_neg he] at h
        simp only [Option.some.injEq] at h
        subst h
        have hka : TrimSpace a ≠ [] := fun e => he (Or.inl e)
        have hvb : TrimSpace b ≠ [] := fun e => he (Or.inr e)
        have hh := head_TrimSpace a (separator :: b) ht hka
        have hl : (TrimSpace b).getLast? = (a ++ separator :: b).getLast? := by
          have := getLast_TrimSpace (a ++ [separator]) b (by simpa using ht) hvb
          simpa using this
        refine ⟨hka, fun hm => ha (mem_of_mem_TrimSpace a _ hm), ?_, Trimmed_TrimSpace a, ?_,
          hvb, ?_, Trimmed_TrimSpace b, ?_⟩
        · exact fun hm => hn (by simp [mem_of_mem_TrimSpace a _ hm])
        · rw [hh]
          exact fun e => hs (Or.inr e)
        · exact fun hm => hn (by simp [mem_of_mem_TrimSpace b _ hm])
        · rw [hh, hl]
          exact hb
    · simp [lineItem, hb, hsep] at h

theorem Writable_New : Writable New := by
  refine ⟨by simp [New, keys], by simp [New, keys], ?_⟩
  intro n m hm
  simp only [New, List.mem_singleton, Prod.mk.injEq] at hm
  obtain ⟨rfl, rfl⟩ := hm
  exact ⟨by simp [defaultSection], by simp [keys], by simp⟩

theorem Writable_mset (ini : INI) (n : Str) (m : kvMap) (h : Writable ini)
    (hn : lineBreak ∉ n) (hm : (keys m).Nodup) (he : ∀ k v, (k, v) ∈ m → EntryOK k v) :
    Writable (mset ini n m) := by
  refine ⟨keys_mset_nodup _ _ _ h.1, (mem_keys_mset _ _ _ _).2 (Or.inr h.2.1), ?_⟩
  intro n' m' hmem
  rcases mem_mset _ _ _ _ hmem with e | e
  · simp only [Prod.mk.injEq] at e
    obtain ⟨rfl, rfl⟩ := e
    exact ⟨hn, hm, he⟩
  · exact h.2.2 n' m' e

theorem Writable_applyItem (it : Item) (hok : ItemOK it) (ini : INI) (cur : Str)
    (h : Writable ini) (hc : cur ∈ keys ini) :
    Writable (applyItem (ini, cur) it).1 ∧
      (applyItem (ini, cur) it).2 ∈ keys (applyItem (ini, cur) it).1 := by
  cases it with
  | header n =>
    refine ⟨Writable_mset ini n [] h hok.2 (by simp [keys]) (by simp), ?_⟩
    exact (mem_keys_mset _ _ _ _).2 (Or.inl rfl)
  | entry k v =>
    obtain ⟨m0, hm0⟩ := Option.isSome_iff_exists.1 ((mget_isSome_iff ini cur).2 hc)
    have hmem := h.2.2 cur m0 (mem_of_mget _ _ _ hm0)
    refine ⟨?_, (mem_keys_mset _ _ _ _).2 (Or.inl rfl)⟩
    simp only [applyItem, setCurrent, hm0, Option.getD_some]
    refine Writable_mset ini cur _ h hmem.1 (keys_mset_nodup _ _ _ hmem.2.1) ?_
    intro k' v' hkv
    rcases mem_mset _ _ _ _ hkv with e | e
    · simp only [Prod.mk.injEq] at e
      obtain ⟨rfl, rfl⟩ := e
      exact hok
    · exact hmem.2.2 k' v' e

theorem Writable_foldl (items : List Item) (hok : ∀ it ∈ items, ItemOK it) :
    ∀ (ini : INI) (cur : Str), Writable ini → cur ∈ keys ini →
      Writable (items.foldl applyItem (ini, cur)).1 := by
  induction items with
  | nil => intro ini cur h _; exact h
  | cons it t ih =>
    intro ini cur h hc
    have := Writable_applyItem it (hok it (List.mem_cons_self _ _)) ini cur h hc
    simp only [List.foldl_cons]
    exact ih (fun x hx => hok x (List.mem_cons_of_mem _ hx)) _ _ this.1 this.2

theorem significantLines_ok (s : Str) (t : Str) (h : t ∈ significantLines s) :
    ¬ Skipped t ∧ Trimmed t ∧ lineBreak ∉ t := by
  unfold significantLines at h
  simp only [List.mem_filter, List.mem_map, decide_eq_true_eq] at h
  obtain ⟨⟨l, hl, rfl⟩, hs⟩ := h
  exact ⟨hs, Trimmed_TrimSpace l,
    fun hm => Split_mem_not_mem s lineBreak l hl (mem_of_mem_TrimSpace l _ hm)⟩

/-- A parsed document is a proper map, holds the default section, and holds
only names and entries that are read back after being written. -/
theorem Writable_ParseString (s : Str) (d : INI) (h : ParseString s = Res.ok d) :
    Writable d := by
  have hnone : none ∉ (significantLines s).map lineItem := by
    intro hm
    have := (itemLoop_error_iff _ (New, defaultSection) Err.ErrFormat).2 ⟨rfl, hm⟩
    rw [← ParseString_eq_itemLoop, h] at this
    exact absurd this (by simp)
  obtain ⟨items, hi⟩ := all_some_of_not_mem _ hnone
  rw [ParseString_eq_itemLoop, hi, itemLoop_some] at h
  simp only [Res.ok.injEq] at h
  subst h
  apply Writable_foldl items _ New defaultSection Writable_New (by simp [New, keys])
  intro it hit
  have : some it ∈ (significantLines s).map lineItem := by
    rw [hi]
    exact List.mem_map.2 ⟨it, hit, rfl⟩
  obtain ⟨t, ht, hti⟩ := List.mem_map.1 this
  obtain ⟨h1, h2, h3⟩ := significantLines_ok s t ht
  exact lineItem_ok t h1 h2 h3 it hti

theorem lineItem_header_inv (t n : Str) (h : lineItem t = some (Item.header n)) :
    t = '[' :: (n ++ [']']) := by
  by_cases hb : Bracketed t
  · obtain ⟨n', rfl⟩ := (Bracketed_iff _).1 hb
    have hn := lineItem_header_ne _ _ h
    unfold lineItem at h
    rw [if_pos hb, header_name_spec] at h
    by_cases hn' : n' = []
    · rw [if_pos hn'] at h
      exact absurd h (by simp)
    · rw [if_neg hn'] at h
      simp only [Option.some.injEq, Item.header.injEq] at h
      rw [h]
  · unfold lineItem at h
    rw [if_neg hb] at h
    by_cases hs : separator ∈ t
    · rw [if_pos hs] at h
      by_cases he : TrimSpace (beforeSep t) = [] ∨ TrimSpace (afterSep t) = []
      · rw [if_pos he] at h
        exact absurd h (by simp)
      · rw [if_neg he] at h
        simp at h
    · rw [if_neg hs] at h
      exact absurd h (by simp)

theorem items_of_ok (s : Str) (d : INI) (h : ParseString s = Res.ok d) :
    ∃ items : List Item, (significantLines s).map lineItem = items.map some := by
  apply all_some_of_not_mem
  intro hm
  have := (itemLoop_error_iff _ (New, defaultSection) Err.ErrFormat).2 ⟨rfl, hm⟩
  rw [← ParseString_eq_itemLoop, h] at this
  exact absurd this (by simp)

theorem ParseString_error_of_Malformed (s l : Str) (hl : l ∈ Split s lineBreak)
    (hm : Malformed (TrimSpace l)) : ParseString s = Res.error Err.ErrFormat := by
  rw [ParseString_eq_itemLoop, itemLoop_error_iff, none_mem_items_iff]
  exact ⟨rfl, l, hl, hm⟩

/-- C5 (as the code behaves): in a parsed document every key is non-empty once
trimmed, and every section name other than the default one is the text between
the brackets of a header line of the input, taken as it is, without trimming;
a text with the line `[]`, or with a line that is not a header and has only
white space before its first `=`, is rejected with `ErrFormat`. -/
theorem parsed_names (s : Str) :
    (∀ d, ParseString s = Res.ok d → ∀ n m, mget d n = some m →
      (n ≠ defaultSection →
        ∃ l ∈ Split s lineBreak, TrimSpace l = '[' :: (n ++ [']'])) ∧
      ∀ k v, mget m k = some v → TrimSpace k ≠ []) ∧
    ((∃ l ∈ Split s lineBreak, TrimSpace l = ['[', ']'] ∨
        (¬ Skipped (TrimSpace l) ∧ ¬ Bracketed (TrimSpace l) ∧
          Blank (beforeSep (TrimSpace l)))) →
      ParseString s = Res.error Err.ErrFormat) := by
  constructor
  · intro d hd n m hm
    constructor
    · intro hn
      obtain ⟨items, hi⟩ := items_of_ok s d hd
      obtain ⟨d', hd', hf⟩ := ParseString_find s items hi
      rw [hd] at hd'
      simp only [Res.ok.injEq] at hd'
      subst hd'
      have h1 := hf n []
      simp only [find, hm, Option.map_some', if_neg hn] at h1
      have h2 : n ∈ keys (headerBlocks items) := by
        rw [← List.mem_reverse, ← keys_reverse, ← mget_isSome_iff]
        cases hR : mget (headerBlocks items).reverse n with
        | some es => rfl
        | none =>
          rw [hR] at h1
          exact absurd h1 (by simp)
      rw [mem_keys_headerBlocks] at h2
      have h3 : some (Item.header n) ∈ (significantLines s).map lineItem := by
        rw [hi]
        exact List.mem_map.2 ⟨_, h2, rfl⟩
      obtain ⟨t, ht, hti⟩ := List.mem_map.1 h3
      unfold significantLines at ht
      simp only [List.mem_filter, List.mem_map, decide_eq_true_eq] at ht
      obtain ⟨⟨l, hl, rfl⟩, _⟩ := ht
      exact ⟨l, hl, lineItem_header_inv _ _ hti⟩
    · intro k v hkv
      have hw := Writable_ParseString s d hd
      have he := (hw.2.2 n m (mem_of_mget _ _ _ hm)).2.2 k v (mem_of_mget _ _ _ hkv)
      rw [TrimSpace_of_Trimmed k he.2.2.2.1]
      exact he.1
  · rintro ⟨l, hl, h | ⟨h1, h2, h3⟩⟩
    · apply ParseString_error_of_Malformed s l hl
      rw [h]
      exact ⟨by simp, by decide, Or.inl rfl⟩
    · apply ParseString_error_of_Malformed s l hl
      refine ⟨fun e => h1 (Or.inl e), fun e => h1 (Or.inr e), ?_⟩
      by_cases hs : separator ∈ TrimSpace l
      · exact Or.inr (Or.inr (Or.inl ⟨hs, h3⟩))
      · exact Or.inr (Or.inl ⟨h2, hs⟩)

/-- The names of the document parsed from a header with spaces and an entry. -/
theorem parsed_names_witness :
    (" x ".toList ≠ defaultSection →
      ∃ l ∈ Split "[ x ]\n a = 1".toList lineBreak,
        TrimSpace l = '[' :: (" x ".toList ++ [']'])) ∧
    ∀ k v, mget [("a".toList, "1".toList)] k = some v → TrimSpace k ≠ [] :=
  (parsed_names "[ x ]\n a = 1".toList).1
    [([], []), (" x ".toList, [("a".toList, "1".toList)])] (by decide) " x ".toList
    [("a".toList, "1".toList)] (by decide)

/-- C5, the claim as stated fails: the header `[ ]` is accepted, and names a
section whose name is empty once trimmed. -/
theorem blank_section_name_accepted :
    ParseString "[ ]".toList = Res.ok [([], []), (" ".toList, [])] ∧
      " ".toList ≠ defaultSection ∧ TrimSpace " ".toList = [] := by
  decide

/-! ## Writing and reading back -/

theorem render_append (a b : List Item) : render (a ++ b) = render a ++ render b := by
  induction a with
  | nil => rfl
  | cons it t ih => simp [render, ih]

theorem writeKV_eq_render (kv : kvMap) : writeKV kv = render (entryItems kv) := by
  induction kv with
  | nil => rfl
  | cons e t ih =>
    obtain ⟨k, v⟩ := e
    simp only [writeKV, entryItems, List.map_cons, render, itemLine, List.append_assoc,
      List.cons_append]
    rw [ih]
    rfl

theorem writeSections_eq_render (d : INI) : writeSections d = render (sectionItems d) := by
  induction d with
  | nil => rfl
  | cons e t ih =>
    obtain ⟨n, kv⟩ := e
    by_cases hn : n = defaultSection
    · simp only [writeSections, sectionItems, if_pos hn, ih]
    · simp only [writeSections, sectionItems, if_neg hn, render, itemLine, render_append,
        ih, writeKV_eq_render, List.cons_append, List.append_assoc, List.nil_append]

theorem WriteIn_eq_render (d : INI) : WriteIn d = render (docItems d) := by
  unfold WriteIn docItems
  rw [render_append, writeSections_eq_render]
  cases mget d defaultSection with
  | none => rfl
  | some kv => simp only [writeKV_eq_render]

theorem itemLine_ok (it : Item) (h : ItemOK it) :
    lineItem (itemLine it) = some it ∧ Trimmed (itemLine it) ∧ ¬ Skipped (itemLine it) ∧
      lineBreak ∉ itemLine it := by
  cases it with
  | header n =>
    refine ⟨lineItem_header n h.1, ?_, ?_, ?_⟩
    · constructor
      · intro c hc
        simp only [itemLine, List.head?_cons, Option.some.injEq] at hc
        subst hc
        decide
      · intro c hc
        simp only [itemLine] at hc
        rw [← List.cons_append, List.getLast?_concat] at hc
        simp only [Option.some.injEq] at hc
        subst hc
        decide
    · rintro (e | e)
      · simp [itemLine] at e
      · simp only [itemLine, List.head?_cons, Option.some.injEq] at e
        exact absurd e (by decide)
    · intro hm
      simp only [itemLine, List.mem_cons, List.mem_append, List.mem_singleton] at hm
      rcases hm with e | e | e
      · exact absurd e (by decide)
      · exact h.2 e
      · exact absurd e (by decide)
  | entry k v =>
    obtain ⟨hk0, hks, hkn, hkt, hkc, hv0, hvn, hvt, hnb⟩ := h
    have h1 := lineItem_entry k v [] [] hkt hk0 hks hvt hv0 hnb
      (by intro c hc; simp at hc) (by intro c hc; simp at hc)
    simp only [List.append_nil, List.nil_append] at h1
    refine ⟨h1, ?_, ?_, ?_⟩
    · have := Trimmed_between k [separator] v hkt hvt hk0 hv0
      simpa [itemLine] using this
    · rintro (e | e)
      · simp [itemLine] at e
      · simp only [itemLine] at e
        rw [List.head?_append_of_ne_nil _ hk0] at e
        exact hkc e
    · intro hm
      simp only [itemLine, List.mem_cons, List.mem_append] at hm
      rcases hm with e | e | e
      · exact hkn e
      · exact absurd e (by decide)
      · exact hvn e

/-- The significant lines of a written text are the lines of its items. -/
theorem significantLines_render (items : List Item) (hok : ∀ it ∈ items, ItemOK it) :
    (significantLines (render items)).map lineItem = items.map some := by
  induction items with
  | nil => decide
  | cons it t ih =>
    obtain ⟨h1, h2, h3, h4⟩ := itemLine_ok it (hok it (List.mem_cons_self _ _))
    have ih' := ih (fun x hx => hok x (List.mem_cons_of_mem _ hx))
    unfold significantLines at ih' ⊢
    simp only [render]
    rw [Split_line _ _ _ h4]
    simp only [List.map_cons]
    rw [TrimSpace_of_Trimmed _ h2, List.filter_cons_of_pos (by simpa using h3)]
    simp only [List.map_cons, h1, ih']

theorem leadingEntries_entryItems (kv : kvMap) (rest : List Item) :
    leadingEntries (entryItems kv ++ rest) = kv ++ leadingEntries rest := by
  induction kv with
  | nil => rfl
  | cons e t ih =>
    simp only [entryItems] at ih
    simp [entryItems, leadingEntries, ih]

theorem headerBlocks_entryItems (kv : kvMap) (rest : List Item) :
    headerBlocks (entryItems kv ++ rest) = headerBlocks rest := by
  induction kv with
  | nil => rfl
  | cons e t ih =>
    simp only [entryItems] at ih
    simp [entryItems, headerBlocks, ih]

theorem leadingEntries_sectionItems (d : INI) : leadingEntries (sectionItems d) = [] := by
  induction d with
  | nil => rfl
  | cons e t ih =>
    obtain ⟨n, kv⟩ := e
    by_cases hn : n = defaultSection
    · simp only [sectionItems, if_pos hn, ih]
    · simp only [sectionItems, if_neg hn, leadingEntries]

theorem headerBlocks_sectionItems (d : INI) :
    headerBlocks (sectionItems d) = d.filter (fun e => e.1 ≠ defaultSection) := by
  induction d with
  | nil => rfl
  | cons e t ih =>
    obtain ⟨n, kv⟩ := e
    by_cases hn : n = defaultSection
    · simp only [sectionItems, if_pos hn, ih]
      rw [List.filter_cons_of_neg (by simp [hn])]
    · simp only [sectionItems, if_neg hn, headerBlocks, leadingEntries_entryItems,
        leadingEntries_sectionItems, headerBlocks_entryItems, ih, List.append_nil]
      rw [List.filter_cons_of_pos (by simp [hn])]

theorem docItems_ok (d : INI) (hw : Writable d) : ∀ it ∈ docItems d, ItemOK it := by
  have hsec : ∀ (l : INI), (∀ e ∈ l, e ∈ d) → ∀ it ∈ sectionItems l, ItemOK it := by
    intro l
    induction l with
    | nil => intro _ it hit; simp [sectionItems] at hit
    | cons e t ih =>
      intro hsub it hit
      obtain ⟨n, kv⟩ := e
      have hmem := hw.2.2 n kv (hsub _ (List.mem_cons_self _ _))
      have ih' := ih (fun x hx => hsub x (List.mem_cons_of_mem _ hx))
      by_cases hn : n = defaultSection
      · simp only [sectionItems, if_pos hn] at hit
        exact ih' it hit
      · simp only [sectionItems, if_neg hn, List.mem_cons, List.mem_append] at hit
        rcases hit with e1 | e1 | e1
        · subst e1
          exact ⟨hn, hmem.1⟩
        · simp only [entryItems, List.mem_map] at e1
          obtain ⟨⟨k, v⟩, hkv, rfl⟩ := e1
          exact hmem.2.2 k v hkv
        · exact ih' it e1
  intro it hit
  unfold docItems at hit
  rcases List.mem_append.1 hit with e | e
  · cases hm : mget d defaultSection with
    | none => rw [hm] at e; simp at e
    | some kv =>
      rw [hm] at e
      simp only [entryItems, List.mem_map] at e
      obtain ⟨⟨k, v⟩, hkv, rfl⟩ := e
      exact (hw.2.2 _ kv (mem_of_mget _ _ _ hm)).2.2 k v hkv
  · exact hsec d (fun _ h => h) it e

theorem keys_perm {β : Type} (l l' : List (Str × β)) (hp : l.Perm l') :
    (keys l).Perm (keys l') :=
  List.Perm.map Prod.fst hp

theorem mget_perm {β : Type} (l l' : List (Str × β)) (hnd : (keys l).Nodup)
    (hp : l.Perm l') (k : Str) : mget l k = mget l' k := by
  have hk := keys_perm l l' hp
  cases h : mget l k with
  | some v =>
    have h1 : (k, v) ∈ l' := (List.Perm.mem_iff hp).1 (mem_of_mget _ _ _ h)
    exact (mget_of_mem_nodup l' ((List.Perm.nodup_iff hk).1 hnd) k v h1).symm
  | none =>
    have h1 : k ∉ keys l' := fun hm =>
      (mget_eq_none_iff l k).1 h ((List.Perm.mem_iff hk).2 hm)
    exact ((mget_eq_none_iff l' k).2 h1).symm

theorem mget_reverse {β : Type} (l : List (Str × β)) (hnd : (keys l).Nodup) (k : Str) :
    mget l.reverse k = mget l k :=
  (mget_perm l l.reverse hnd (List.reverse_perm l).symm k).symm

theorem mget_filter_ne {β : Type} (l : List (Str × β)) (x n : Str) (h : n ≠ x) :
    mget (l.filter (fun e => e.1 ≠ x)) n = mget l n := by
  induction l with
  | nil => rfl
  | cons e t ih =>
    obtain ⟨a, b⟩ := e
    by_cases ha : a = x
    · have han : ¬ a = n := fun e => h (e ▸ ha)
      rw [List.filter_cons_of_neg (by simp [ha])]
      simp only [mget, if_neg han]
      exact ih
    · rw [List.filter_cons_of_pos (by simp [ha])]
      by_cases han : a = n
      · simp only [mget, if_pos han]
      · simp only [mget, if_neg han]
        exact ih

theorem keys_filter_nodup {β : Type} (l : List (Str × β)) (p : Str × β → Bool)
    (hnd : (keys l).Nodup) : (keys (l.filter p)).Nodup :=
  List.Nodup.sublist (List.Sublist.map Prod.fst (List.filter_sublist l)) hnd

/-- Reading back what `Write` wrote, in the order of the lists, gives the
document again. -/
theorem read_back (d : INI) (hw : Writable d) :
    ∃ d', Parse (WriteIn d) = Res.ok d' ∧ SameDoc d' d := by
  have hitems : (significantLines (WriteIn d)).map lineItem = (docItems d).map some := by
    rw [WriteIn_eq_render]
    exact significantLines_render _ (docItems_ok d hw)
  obtain ⟨d', hd, hf⟩ := ParseString_find (WriteIn d) (docItems d) hitems
  refine ⟨d', hd, ?_⟩
  obtain ⟨kv0, hm0⟩ := Option.isSome_iff_exists.1 ((mget_isSome_iff d defaultSection).2 hw.2.1)
  have hkv0 := (hw.2.2 _ kv0 (mem_of_mget _ _ _ hm0)).2.1
  have hB : headerBlocks (docItems d) = d.filter (fun e => e.1 ≠ defaultSection) := by
    unfold docItems
    rw [hm0, headerBlocks_entryItems, headerBlocks_sectionItems]
  have hL : leadingEntries (docItems d) = kv0 := by
    unfold docItems
    rw [hm0]
    simp only [leadingEntries_entryItems, leadingEntries_sectionItems, List.append_nil]
  have hFnd : (keys (d.filter (fun e => e.1 ≠ defaultSection))).Nodup :=
    keys_filter_nodup d _ hw.1
  intro n k
  rw [hf n k, hB, hL, mget_reverse _ hFnd]
  by_cases hn : n = defaultSection
  · subst hn
    have : mget (d.filter (fun e => e.1 ≠ defaultSection)) defaultSection = none := by
      rw [mget_eq_none_iff]
      intro hm
      simp only [keys, List.mem_map, List.mem_filter] at hm
      obtain ⟨e, ⟨_, he⟩, he2⟩ := hm
      simp [he2] at he
    rw [this]
    simp only [if_true, find, hm0, Option.map_some', lastValue]
    rw [mget_reverse _ hkv0]
  · rw [mget_filter_ne d defaultSection n hn]
    cases hm : mget d n with
    | none => simp [find, hm, hn]
    | some es =>
      have hes := (hw.2.2 _ es (mem_of_mget _ _ _ hm)).2.1
      simp only [find, hm, Option.map_some', lastValue]
      rw [mget_reverse _ hes]

theorem Forall₂_keys (d mid : INI)
    (h : List.Forall₂ (fun a b => a.1 = b.1 ∧ List.Perm a.2 b.2) d mid) :
    keys mid = keys d := by
  induction h with
  | nil => rfl
  | cons hab _ ih =>
    simp only [keys, List.map_cons] at ih ⊢
    rw [ih, hab.1]

theorem Forall₂_mem (d mid : INI)
    (h : List.Forall₂ (fun a b => a.1 = b.1 ∧ List.Perm a.2 b.2) d mid) :
    ∀ n m', (n, m') ∈ mid → ∃ m, (n, m) ∈ d ∧ m.Perm m' := by
  induction h with
  | nil => intro n m' hm; simp at hm
  | @cons a b l1 l2 hab _ ih =>
    intro n m' hm
    rcases List.mem_cons.1 hm with e | e
    · refine ⟨a.2, ?_, ?_⟩
      · have : a = (n, a.2) := by
          rw [Prod.ext_iff]
          exact ⟨by rw [hab.1, ← e], rfl⟩
        rw [← this]
        exact List.mem_cons_self _ _
      · have := hab.2
        rw [← e] at this
        exact this
    · obtain ⟨m, h1, h2⟩ := ih n m' e
      exact ⟨m, List.mem_cons_of_mem _ h1, h2⟩

theorem Forall₂_find (d mid : INI)
    (h : List.Forall₂ (fun a b => a.1 = b.1 ∧ List.Perm a.2 b.2) d mid)
    (hnd : ∀ n m, (n, m) ∈ d → (keys m).Nodup) : ∀ n k, find mid n k = find d n k := by
  induction h with
  | nil => intro n k; rfl
  | @cons a b l1 l2 hab _ ih =>
    intro n k
    obtain ⟨a1, a2⟩ := a
    obtain ⟨b1, b2⟩ := b
    simp only at hab
    obtain ⟨rfl, hp⟩ := hab
    have ih' := ih (fun n m hm => hnd n m (List.mem_cons_of_mem _ hm)) n k
    by_cases hn : a1 = n
    · simp only [find, mget, if_pos hn, Option.map_some', Option.some.injEq]
      exact (mget_perm a2 b2 (hnd a1 a2 (List.mem_cons_self _ _)) hp k).symm
    · simp only [find, mget, if_neg hn] at ih' ⊢
      exact ih'

/-- Every iteration order of a document that is read back is a document that
is read back, and the same mapping. -/
theorem IterOrder_Writable (d d' : INI) (hw : Writable d) (ho : IterOrder d d') :
    Writable d' ∧ SameDoc d' d := by
  obtain ⟨mid, hf, hp⟩ := ho
  have hk := Forall₂_keys d mid hf
  have hkp := keys_perm mid d' hp
  have hmidnd : (keys mid).Nodup := by rw [hk]; exact hw.1
  have hmid : ∀ n m', (n, m') ∈ mid →
      lineBreak ∉ n ∧ (keys m').Nodup ∧ ∀ k v, (k, v) ∈ m' → EntryOK k v := by
    intro n m' hm
    obtain ⟨m, h1, h2⟩ := Forall₂_mem d mid hf n m' hm
    have := hw.2.2 n m h1
    refine ⟨this.1, (List.Perm.nodup_iff (keys_perm m m' h2)).1 this.2.1, ?_⟩
    intro k v hkv
    exact this.2.2 k v ((List.Perm.mem_iff h2).2 hkv)
  constructor
  · refine ⟨(List.Perm.nodup_iff hkp).1 hmidnd, ?_, ?_⟩
    · rw [← List.Perm.mem_iff hkp, hk]
      exact hw.2.1
    · intro n m hm
      exact hmid n m ((List.Perm.mem_iff hp).2 hm)
  · intro n k
    have h1 := Forall₂_find d mid hf (fun n m hm => (hw.2.2 n m hm).2.1) n k
    rw [← h1]
    unfold find
    rw [mget_perm mid d' hmidnd hp n]

theorem IterOrder_refl (d : INI) : IterOrder d d :=
  ⟨d, List.forall₂_same.2 (fun _ _ => ⟨rfl, List.Perm.refl _⟩), List.Perm.refl _⟩

theorem isSome_of_SameDoc (a b : INI) (h : SameDoc a b) (n : Str) :
    (mget a n).isSome = (mget b n).isSome := by
  have := h n []
  unfold find at this
  cases ha : mget a n <;> cases hb : mget b n <;> simp [ha, hb] at this ⊢

/-- C1: when `ParseString` succeeds on a text with the document `d`, every
text that `Write` can produce for `d`, whatever the order in which the sections
and the keys of a section are visited, is parsed by `Parse` without error, to
a document with the same section names (the sections without keys included)
and, in every section, the same keys with the same values. -/
theorem parse_write_parse (s : Str) (d : INI) (out : Str)
    (hp : ParseString s = Res.ok d) (hwr : Write d out) :
    ∃ d', Parse out = Res.ok d' ∧
      (∀ n, (mget d' n).isSome = (mget d n).isSome) ∧
      (∀ n k, find d' n k = find d n k) := by
  obtain ⟨o, ho, rfl⟩ := hwr
  have hw := Writable_ParseString s d hp
  obtain ⟨hw', hsame⟩ := IterOrder_Writable d o hw ho
  obtain ⟨d', hd', hsame'⟩ := read_back o hw'
  have hs : SameDoc d' d := fun n k => (hsame' n k).trans (hsame n k)
  exact ⟨d', hd', isSome_of_SameDoc d' d hs, hs⟩

/-- The round trip on the text of the test `TestWrite`, written with the
sections and keys in the order of the parsed document. -/
theorem parse_write_parse_witness :
    ∃ d', Parse (WriteIn [([], [("century".toList, "21".toList)]),
        ("section1".toList, [("key".toList, "val".toList)]),
        ("section2".toList, [("key".toList, "val".toList)])]) = Res.ok d' ∧
      (∀ n, (mget d' n).isSome = (mget [([], [("century".toList, "21".toList)]),
        ("section1".toList, [("key".toList, "val".toList)]),
        ("section2".toList, [("key".toList, "val".toList)])] n).isSome) ∧
      (∀ n k, find d' n k = find [([], [("century".toList, "21".toList)]),
        ("section1".toList, [("key".toList, "val".toList)]),
        ("section2".toList, [("key".toList, "val".toList)])] n k) :=
  parse_write_parse "\n century = 21\n\n [section1]\n key = val\n\n [section2]\n key = val\n ".toList
    _ _ (by decide) ⟨_, IterOrder_refl _, rfl⟩

/-! ## Accessors and mutators -/

theorem mget_SectionSetKey_same (d : INI) (s k v : Str) :
    mget (SectionSetKey d s k v) s = some (mset ((mget d s).getD []) k v) := by
  unfold SectionSetKey
  cases h : mget d s with
  | none => simp [mget_mset_same]
  | some m => simp [mget_mset_same, h]

theorem mget_SectionSetKey_ne (d : INI) (s k v s' : Str) (h : s ≠ s') :
    mget (SectionSetKey d s k v) s' = mget d s' := by
  unfold SectionSetKey
  cases h1 : mget d s with
  | none => simp [mget_mset_ne _ _ _ _ h]
  | some m => simp [mget_mset_ne _ _ _ _ h]

/-- C8: after `SectionSetKey(s, k, v)` on any document, also one without the
section `s` and for empty strings, `SectionGetKey(s, k)` returns `v` and no
error. -/
theorem SectionSetKey_then_SectionGetKey (d : INI) (s k v : Str) :
    SectionGetKey (SectionSetKey d s k v) s k = Res.ok v := by
  unfold SectionGetKey
  rw [mget_SectionSetKey_same]
  simp [mget_mset_same]

/-- The loop of `SectionUpdate` over `data`, from a document that has the
section `s`: the section ends as the right-biased union. -/
theorem SectionUpdate_loop (data : kvMap) (hnd : (keys data).Nodup) (s : Str) :
    ∀ (acc : INI) (m : kvMap), mget acc s = some m →
      ∃ m', mget (data.foldl (fun acc e =>
          mset acc s (mset ((mget acc s).getD []) e.1 e.2)) acc) s = some m' ∧
        (∀ k, mget m' k = if k ∈ keys data then mget data k else mget m k) ∧
        (∀ s', s ≠ s' → mget (data.foldl (fun acc e =>
          mset acc s (mset ((mget acc s).getD []) e.1 e.2)) acc) s' = mget acc s') := by
  induction data with
  | nil =>
    intro acc m hm
    exact ⟨m, by simpa using hm, by simp [keys], by simp⟩
  | cons e t ih =>
    intro acc m hm
    obtain ⟨a, b⟩ := e
    have hnd' : (keys t).Nodup := by
      simp only [keys, List.map_cons, List.nodup_cons] at hnd
      exact hnd.2
    have hat : a ∉ keys t := by
      simp only [keys, List.map_cons, List.nodup_cons] at hnd
      exact hnd.1
    obtain ⟨m', h1, h2, h3⟩ := ih hnd' (mset acc s (mset ((mget acc s).getD []) a b))
      (mset m a b) (by rw [mget_mset_same, hm]; rfl)
    refine ⟨m', by simpa using h1, ?_, ?_⟩
    · intro k
      rw [h2 k]
      by_cases hk : a = k
      · subst hk
        have : a ∈ keys ((a, b) :: t) := by simp [keys]
        rw [if_neg hat, if_pos this, mget_mset_same]
        simp only [mget, if_true]
      · have hk' : ¬ k = a := fun e => hk e.symm
        by_cases hkt : k ∈ keys t
        · have : k ∈ keys ((a, b) :: t) := by
            simp only [keys, List.map_cons, List.mem_cons]
            exact Or.inr hkt
          rw [if_pos hkt, if_pos this]
          simp only [mget, if_neg hk]
        · have : k ∉ keys ((a, b) :: t) := by
            simp only [keys, List.map_cons, List.mem_cons, not_or]
            exact ⟨hk', hkt⟩
          rw [if_neg hkt, if_neg this, mget_mset_ne _ _ _ _ hk]
    · intro s' hs
      have := h3 s' hs
      rw [mget_mset_ne _ _ _ _ hs] at this
      simpa using this

/-- C9: `SectionGetKey(s, k)` returns `ErrSectionMiss` exactly when the
document has no section `s`, `ErrKeyMiss` exactly when it has the section but
the section has no key `k` (so a missing section is reported first), and the
value `v` exactly when the section stores `v` under `k`.  On a document without
section `LOL` the lookup of `year` is `ErrSectionMiss`, and after
`SectionUpdate("LOL", {year: 2018})` it returns `2018`. -/
theorem SectionGetKey_classification (d : INI) (s k : Str) :
    (SectionGetKey d s k = Res.error Err.ErrSectionMiss ↔ mget d s = none) ∧
    (SectionGetKey d s k = Res.error Err.ErrKeyMiss ↔
      ∃ m, mget d s = some m ∧ mget m k = none) ∧
    (∀ v, SectionGetKey d s k = Res.ok v ↔ ∃ m, mget d s = some m ∧ mget m k = some v) ∧
    (mget d "LOL".toList = none →
      SectionGetKey d "LOL".toList "year".toList = Res.error Err.ErrSectionMiss) ∧
    SectionGetKey (SectionUpdate d "LOL".toList [("year".toList, "2018".toList)])
      "LOL".toList "year".toList = Res.ok "2018".toList := by
  refine ⟨?_, ?_, ?_, ?_, ?_⟩
  · unfold SectionGetKey
    cases h : mget d s with
    | none => simp
    | some m => cases h' : mget m k <;> simp [h']
  · unfold SectionGetKey
    cases h : mget d s with
    | none => simp
    | some m => cases h' : mget m k <;> simp [h']
  · intro v
    unfold SectionGetKey
    cases h : mget d s with
    | none => simp
    | some m => cases h' : mget m k <;> simp [h']
  · intro h
    unfold SectionGetKey
    rw [h]
  · unfold SectionGetKey SectionUpdate
    cases h : mget d "LOL".toList with
    | none => simp [mget_mset_same, mset, mget]
    | some m => simp [mget_mset_same, h]

/-- The classification at the document `New`, which has no section `LOL`. -/
theorem SectionGetKey_classification_witness :
    SectionGetKey New "LOL".toList "year".toList = Res.error Err.ErrSectionMiss :=
  (SectionGetKey_classification New "LOL".toList "year".toList).2.2.2.1 (by decide)

/-- C10: `SectionUpdate(s, data)` for a map `data` (its keys are distinct):
afterwards the section `s` exists, maps every key of `data` to its value in
`data` and every other key to what the section held before (nothing, when the
document had no section `s`, so that the section then equals `data`), and every
other section is as before. -/
theorem SectionUpdate_union (d : INI) (s : Str) (data : kvMap)
    (hnd : (keys data).Nodup) :
    ∃ m, mget (SectionUpdate d s data) s = some m ∧
      (∀ k, mget m k =
        if k ∈ keys data then mget data k else mget ((mget d s).getD []) k) ∧
      (mget d s = none → ∀ k, mget m k = mget data k) ∧
      (∀ s', s ≠ s' → mget (SectionUpdate d s data) s' = mget d s') := by
  unfold SectionUpdate
  cases h : mget d s with
  | none =>
    obtain ⟨m', h1, h2, h3⟩ := SectionUpdate_loop data hnd s (mset d s []) []
      (mget_mset_same _ _ _)
    refine ⟨m', by simpa using h1, by simpa using h2, ?_, ?_⟩
    · intro _ k
      rw [h2 k]
      by_cases hk : k ∈ keys data
      · rw [if_pos hk]
      · rw [if_neg hk]
        exact ((mget_eq_none_iff data k).2 hk).symm
    · intro s' hs
      have := h3 s' hs
      rw [mget_mset_ne _ _ _ _ hs] at this
      simpa using this
  | some m =>
    obtain ⟨m', h1, h2, h3⟩ := SectionUpdate_loop data hnd s d m h
    refine ⟨m', by simpa using h1, by simpa using h2, by simp, ?_⟩
    intro s' hs
    simpa using h3 s' hs

/-- The union at a document whose section `a` holds `x` and `y`, updated with
new values for `y` and `z`. -/
theorem SectionUpdate_union_witness :
    ∃ m, mget (SectionUpdate [([], []), ("a".toList, [("x".toList, "1".toList),
        ("y".toList, "2".toList)])] "a".toList
        [("y".toList, "3".toList), ("z".toList, "4".toList)]) "a".toList = some m ∧
      (∀ k, mget m k =
        if k ∈ keys [("y".toList, "3".toList), ("z".toList, "4".toList)]
        then mget [("y".toList, "3".toList), ("z".toList, "4".toList)] k
        else mget ((mget [([], []), ("a".toList, [("x".toList, "1".toList),
          ("y".toList, "2".toList)])] "a".toList).getD []) k) ∧
      (mget [([], []), ("a".toList, [("x".toList, "1".toList),
          ("y".toList, "2".toList)])] "a".toList = none →
        ∀ k, mget m k = mget [("y".toList, "3".toList), ("z".toList, "4".toList)] k) ∧
      (∀ s', "a".toList ≠ s' →
        mget (SectionUpdate [([], []), ("a".toList, [("x".toList, "1".toList),
          ("y".toList, "2".toList)])] "a".toList
          [("y".toList, "3".toList), ("z".toList, "4".toList)]) s' =
        mget [([], []), ("a".toList, [("x".toList, "1".toList),
          ("y".toList, "2".toList)])] s') :=
  SectionUpdate_union _ _ _ (by decide)

/-! ## Deleting and reading -/

theorem mget_mdel_same {β : Type} (m : List (Str × β)) (k : Str) :
    mget (mdel m k) k = none := by
  rw [mget_eq_none_iff]
  intro hm
  simp only [keys, mdel, List.mem_map, List.mem_filter] at hm
  obtain ⟨e, ⟨_, he⟩, he2⟩ := hm
  simp [he2] at he

theorem mget_mdel_ne {β : Type} (m : List (Str × β)) (k k' : Str) (h : k ≠ k') :
    mget (mdel m k) k' = mget m k' :=
  mget_filter_ne m k k' (fun e => h e.symm)

theorem mdel_of_absent {β : Type} (m : List (Str × β)) (k : Str) (h : mget m k = none) :
    mdel m k = m := by
  unfold mdel
  rw [List.filter_eq_self]
  intro e he
  have hk := (mget_eq_none_iff m k).1 h
  have : e.1 ≠ k := fun e1 => hk (List.mem_map.2 ⟨e, he, e1⟩)
  simpa using this

/-- C11: `SectionDel("")` returns an error (the one for the default section,
which is none of the three sentinels) and leaves the document as it was,
whatever the document holds and whether or not it has the default section. -/
theorem SectionDel_default (d : INI) :
    (SectionDel d defaultSection).2 = some Err.errRemoveDefault ∧
      (SectionDel d defaultSection).1 = d := by
  unfold SectionDel
  simp

/-- C12: for a name `s` other than the default one, `SectionDel(s)` returns
`ErrSectionMiss` exactly when the document has no section `s`, and then leaves
the document as it was; otherwise it returns no error, the section `s` is
absent afterwards and every other section is as before. -/
theorem SectionDel_named (d : INI) (s : Str) (hs : s ≠ defaultSection) :
    ((SectionDel d s).2 = some Err.ErrSectionMiss ↔ mget d s = none) ∧
    (mget d s = none → (SectionDel d s).1 = d) ∧
    ((mget d s).isSome → (SectionDel d s).2 = none ∧
      mget (SectionDel d s).1 s = none ∧
      ∀ s', s ≠ s' → mget (SectionDel d s).1 s' = mget d s') := by
  unfold SectionDel
  rw [if_neg hs]
  cases h : mget d s with
  | none => simp
  | some m =>
    refine ⟨by simp, by simp, ?_⟩
    intro _
    exact ⟨rfl, mget_mdel_same d s, fun s' hs' => mget_mdel_ne d s s' hs'⟩

/-- Deleting the section `a`, which is present, and then `b`, which is not. -/
theorem SectionDel_named_witness :
    ((SectionDel [([], []), ("a".toList, [("x".toList, "1".toList)])] "a".toList).2 =
        some Err.ErrSectionMiss ↔
      mget [([], []), ("a".toList, [("x".toList, "1".toList)])] "a".toList = none) ∧
    (mget [([], []), ("a".toList, [("x".toList, "1".toList)])] "a".toList = none →
      (SectionDel [([], []), ("a".toList, [("x".toList, "1".toList)])] "a".toList).1 =
        [([], []), ("a".toList, [("x".toList, "1".toList)])]) ∧
    ((mget [([], []), ("a".toList, [("x".toList, "1".toList)])] "a".toList).isSome →
      (SectionDel [([], []), ("a".toList, [("x".toList, "1".toList)])] "a".toList).2 = none ∧
      mget (SectionDel [([], []), ("a".toList, [("x".toList, "1".toList)])] "a".toList).1
        "a".toList = none ∧
      ∀ s', "a".toList ≠ s' →
        mget (SectionDel [([], []), ("a".toList, [("x".toList, "1".toList)])] "a".toList).1 s' =
          mget [([], []), ("a".toList, [("x".toList, "1".toList)])] s') :=
  SectionDel_named _ "a".toList (by decide)

/-- C13: `SectionDelKey(s, k)` returns `ErrSectionMiss` exactly when the
document has no section `s`, and then leaves the document as it was; otherwise
it returns no error, the section `s` is still present (also when it is left
empty), has no key `k`, keeps every other key with its value, every other
section is as before, and the document is not changed at all when `k` was
already absent. -/
theorem SectionDelKey_effect (d : INI) (s k : Str) :
    ((SectionDelKey d s k).2 = some Err.ErrSectionMiss ↔ mget d s = none) ∧
    (mget d s = none → (SectionDelKey d s k).1 = d) ∧
    (∀ m, mget d s = some m →
      (SectionDelKey d s k).2 = none ∧
      (∃ m', mget (SectionDelKey d s k).1 s = some m' ∧ mget m' k = none ∧
        ∀ k', k ≠ k' → mget m' k' = mget m k') ∧
      (∀ s', s ≠ s' → mget (SectionDelKey d s k).1 s' = mget d s') ∧
      (mget m k = none → (SectionDelKey d s k).1 = d)) := by
  cases h : mget d s with
  | none =>
    have e : SectionDelKey d s k = (d, some Err.ErrSectionMiss) := by
      unfold SectionDelKey
      rw [h]
    rw [e]
    simp
  | some m =>
    cases hk : mget m k with
    | none =>
      have e : SectionDelKey d s k = (d, none) := by
        unfold SectionDelKey
        rw [h]
        simp [hk]
      rw [e]
      refine ⟨by simp, by simp, ?_⟩
      intro m0 hm0
      simp only [Option.some.injEq] at hm0
      subst hm0
      exact ⟨rfl, ⟨m, h, hk, fun _ _ => rfl⟩, fun _ _ => rfl, fun _ => rfl⟩
    | some v =>
      have e : SectionDelKey d s k = (mset d s (mdel m k), none) := by
        unfold SectionDelKey
        rw [h]
        simp [hk]
      rw [e]
      refine ⟨by simp, by simp, ?_⟩
      intro m0 hm0
      simp only [Option.some.injEq] at hm0
      subst hm0
      exact ⟨rfl, ⟨mdel m k, mget_mset_same _ _ _, mget_mdel_same m k,
        fun k' hk' => mget_mdel_ne m k k' hk'⟩, fun s' hs' => mget_mset_ne _ _ _ _ hs',
        fun h0 => by rw [hk] at h0; exact absurd h0 (by simp)⟩

/-- The test `section key remove`: deleting `key` leaves `section1` empty. -/
theorem SectionDelKey_effect_witness :
    (SectionDelKey [([], [("century".toList, "21".toList)]),
        ("section1".toList, [("key".toList, "val".toList)])]
        "section1".toList "key".toList).2 = none ∧
      (∃ m', mget (SectionDelKey [([], [("century".toList, "21".toList)]),
          ("section1".toList, [("key".toList, "val".toList)])]
          "section1".toList "key".toList).1 "section1".toList = some m' ∧
        mget m' "key".toList = none ∧
        ∀ k', "key".toList ≠ k' →
          mget m' k' = mget [("key".toList, "val".toList)] k') ∧
      (∀ s', "section1".toList ≠ s' →
        mget (SectionDelKey [([], [("century".toList, "21".toList)]),
          ("section1".toList, [("key".toList, "val".toList)])]
          "section1".toList "key".toList).1 s' =
        mget [([], [("century".toList, "21".toList)]),
          ("section1".toList, [("key".toList, "val".toList)])] s') ∧
      (mget [("key".toList, "val".toList)] "key".toList = none →
        (SectionDelKey [([], [("century".toList, "21".toList)]),
          ("section1".toList, [("key".toList, "val".toList)])]
          "section1".toList "key".toList).1 =
        [([], [("century".toList, "21".toList)]),
          ("section1".toList, [("key".toList, "val".toList)])]) :=
  (SectionDelKey_effect _ "section1".toList "key".toList).2.2 _ (by decide)

/-! ## Frame of the mutators and the default section -/

theorem isSome_mget_mset {β : Type} (m : List (Str × β)) (s n : Str) (x : β)
    (h : (mget m n).isSome) : (mget (mset m s x) n).isSome := by
  by_cases hs : s = n
  · subst hs
    rw [mget_mset_same]
    rfl
  · rw [mget_mset_ne _ _ _ _ hs]
    exact h

theorem isSome_SectionSetKey (d : INI) (s k v n : Str) (h : (mget d n).isSome) :
    (mget (SectionSetKey d s k v) n).isSome := by
  by_cases hs : s = n
  · subst hs
    rw [mget_SectionSetKey_same]
    rfl
  · rw [mget_SectionSetKey_ne _ _ _ _ _ hs]
    exact h

theorem isSome_SectionUpdate (d : INI) (s : Str) (data : kvMap) (n : Str)
    (h : (mget d n).isSome) : (mget (SectionUpdate d s data) n).isSome := by
  unfold SectionUpdate
  have hloop : ∀ (l : kvMap) (acc : INI), (mget acc n).isSome →
      (mget (l.foldl (fun acc e =>
        mset acc s (mset ((mget acc s).getD []) e.1 e.2)) acc) n).isSome := by
    intro l
    induction l with
    | nil => intro acc ha; exact ha
    | cons e t ih =>
      intro acc ha
      simp only [List.foldl_cons]
      exact ih _ (isSome_mget_mset acc s n _ ha)
  apply hloop
  by_cases hn : (mget d s).isNone
  · simp only [hn, if_true]
    exact isSome_mget_mset d s n _ h
  · simp only [hn]
    exact h

theorem isSome_SectionDelKey (d : INI) (s k n : Str) (h : (mget d n).isSome) :
    (mget (SectionDelKey d s k).1 n).isSome := by
  unfold SectionDelKey
  cases hm : mget d s with
  | none => exact h
  | some m =>
    by_cases hk : (mget m k).isSome = true
    · simp only [if_pos hk]
      exact isSome_mget_mset d s n _ h
    · simp only [if_neg hk]
      exact h

theorem isSome_SectionDel_default (d : INI) (s : Str)
    (h : (mget d defaultSection).isSome) :
    (mget (SectionDel d s).1 defaultSection).isSome := by
  unfold SectionDel
  by_cases hs : s = defaultSection
  · simp only [if_pos hs]
    exact h
  · simp only [if_neg hs]
    cases hm : mget d s with
    | none => exact h
    | some m =>
      show (mget (mdel d s) defaultSection).isSome
      rw [mget_mdel_ne d s defaultSection hs]
      exact h

theorem isSome_runCall_default (d : INI) (c : Call) (h : (mget d defaultSection).isSome) :
    (mget (runCall d c) defaultSection).isSome := by
  cases c with
  | sectionSetKey s k v => exact isSome_SectionSetKey d s k v _ h
  | defaultSectionSetKey k v => exact isSome_SectionSetKey d _ k v _ h
  | sectionDelKey s k => exact isSome_SectionDelKey d s k _ h
  | defaultSectionDelKey k => exact isSome_SectionDelKey d _ k _ h
  | sectionDel s => exact isSome_SectionDel_default d s h
  | sectionUpdate s data => exact isSome_SectionUpdate d s data _ h

/-- C15: `New` returns the document whose only section is the default one,
empty; every document returned by `ParseString` or `Parse` has the default
section; and a document that has the default section still has it after any
sequence of calls of the six mutators, whether they return an error or not. -/
theorem default_section_always_present :
    (keys New = [defaultSection] ∧ mget New defaultSection = some []) ∧
    (∀ s d, ParseString s = Res.ok d → (mget d defaultSection).isSome) ∧
    (∀ data d, Parse data = Res.ok d → (mget d defaultSection).isSome) ∧
    (∀ (calls : List Call) (d : INI), (mget d defaultSection).isSome →
      (mget (calls.foldl runCall d) defaultSection).isSome) := by
  refine ⟨⟨rfl, rfl⟩, ?_, ?_, ?_⟩
  · intro s d hd
    exact (mget_isSome_iff d _).2 (Writable_ParseString s d hd).2.1
  · intro s d hd
    exact (mget_isSome_iff d _).2 (Writable_ParseString s d hd).2.1
  · intro calls
    induction calls with
    | nil => intro d h; exact h
    | cons c t ih =>
      intro d h
      simp only [List.foldl_cons]
      exact ih _ (isSome_runCall_default d c h)

/-- From `New`: deleting the default section fails, then a section is added and
deleted, and a key of the default section is set and deleted. -/
theorem default_section_always_present_witness :
    (mget ([Call.sectionDel defaultSection, Call.sectionSetKey "a".toList "x".toList "1".toList,
        Call.sectionDel "a".toList, Call.defaultSectionSetKey "k".toList "v".toList,
        Call.defaultSectionDelKey "k".toList, Call.sectionDelKey "b".toList "k".toList,
        Call.sectionUpdate defaultSection [("y".toList, "2".toList)]].foldl runCall New)
      defaultSection).isSome :=
  default_section_always_present.2.2.2 _ New (by decide)

/-- C16: after `SectionSetKey(s, k, v)` the section `s` exists and maps `k` to
`v`; every other key of the section has the value it had before (none, when
the section was created by the call, which then holds `k` alone); every other
section is as before; and `DefaultSectionSetKey(k, v)` is
`SectionSetKey("", k, v)`.  From `New`, the calls of the test give
`{"": {hello: world}, section1: {key: val}}`. -/
theorem SectionSetKey_frame (d : INI) (s k v : Str) :
    (∃ m', mget (SectionSetKey d s k v) s = some m' ∧ mget m' k = some v ∧
      (∀ k', k ≠ k' → mget m' k' = mget ((mget d s).getD []) k') ∧
      (mget d s = none → m' = [(k, v)])) ∧
    (∀ s', s ≠ s' → mget (SectionSetKey d s k v) s' = mget d s') ∧
    DefaultSectionSetKey d k v = SectionSetKey d defaultSection k v ∧
    SectionSetKey (DefaultSectionSetKey New "hello".toList "world".toList)
        "section1".toList "key".toList "val".toList =
      [(defaultSection, [("hello".toList, "world".toList)]),
        ("section1".toList, [("key".toList, "val".toList)])] := by
  refine ⟨⟨_, mget_SectionSetKey_same d s k v, mget_mset_same _ _ _,
    fun k' hk' => mget_mset_ne _ _ _ _ hk', ?_⟩,
    fun s' hs' => mget_SectionSetKey_ne d s k v s' hs', rfl, by decide⟩
  intro h
  rw [h]
  rfl

/-- Setting a key in a section that the document does not have yet. -/
theorem SectionSetKey_frame_witness :
    ∃ m', mget (SectionSetKey New "a".toList "x".toList "1".toList) "a".toList = some m' ∧
      mget m' "x".toList = some "1".toList ∧
      (∀ k', "x".toList ≠ k' → mget m' k' = mget ((mget New "a".toList).getD []) k') ∧
      (mget New "a".toList = none → m' = [("x".toList, "1".toList)]) :=
  (SectionSetKey_frame New "a".toList "x".toList "1".toList).1

/-- C17: `SectionGet(s)` leaves the document as it was; it returns the map
stored for the section `s` and no error when the document has the section, and
the `nil` map with `ErrSectionMiss` when it has not.  A failed `SectionGet` or
`SectionGetKey` does not create the section: the same lookup on the document
after the call fails again. -/
theorem SectionGet_pure (d : INI) (s : Str) :
    (SectionGet d s).1 = d ∧
    (∀ m, mget d s = some m → (SectionGet d s).2 = (some m, none)) ∧
    (mget d s = none → (SectionGet d s).2 = (none, some Err.ErrSectionMiss)) ∧
    ((SectionGet d s).2.2 = some Err.ErrSectionMiss →
      mget d s = none ∧
      (SectionGet (SectionGet d s).1 s).2 = (none, some Err.ErrSectionMiss)) ∧
    (∀ k, SectionGetKey d s k = Res.error Err.ErrSectionMiss →
      mget d s = none ∧ (SectionGet d s).2 = (none, some Err.ErrSectionMiss) ∧
      ∀ k', SectionGetKey d s k' = Res.error Err.ErrSectionMiss) := by
  unfold SectionGet SectionGetKey
  cases h : mget d s with
  | none => simp [h]
  | some m =>
    refine ⟨rfl, by simp, by simp, by simp, ?_⟩
    intro k
    cases hk : mget m k <;> simp [hk]

/-- The test `get not exsit section`: the lookup of `LOL` fails, twice. -/
theorem SectionGet_pure_witness :
    mget [([], [("century".toList, "21".toList)])] "LOL".toList = none ∧
      (SectionGet (SectionGet [([], [("century".toList, "21".toList)])] "LOL".toList).1
        "LOL".toList).2 = (none, some Err.ErrSectionMiss) :=
  (SectionGet_pure [([], [("century".toList, "21".toList)])] "LOL".toList).2.2.2.1 (by decide)

/-! ## Writing documents built through the API -/

/-- C18: a document that has the default section, no line break in a section
name, and only entries whose key is not empty, has no `=`, no line break, no
surrounding white space and no leading `#`, whose value is not empty, has no
line break and no surrounding white space, and that do not pair a key starting
with `[` with a value ending with `]`, can be written, and `Parse` of any text
that `Write` produces for it succeeds and returns the same mapping. -/
theorem write_then_parse (d : INI) (hw : Writable d) :
    (∃ out, Write d out) ∧
    ∀ out, Write d out → ∃ d', Parse out = Res.ok d' ∧ SameDoc d' d := by
  refine ⟨⟨WriteIn d, d, IterOrder_refl d, rfl⟩, ?_⟩
  rintro out ⟨o, ho, rfl⟩
  obtain ⟨hw', hsame⟩ := IterOrder_Writable d o hw ho
  obtain ⟨d', hd', hsame'⟩ := read_back o hw'
  exact ⟨d', hd', fun n k => (hsame' n k).trans (hsame n k)⟩

/-- The document of the test `section key/val set`, built from `New` by
`DefaultSectionSetKey` and `SectionSetKey`. -/
theorem write_then_parse_witness :
    ∃ d', Parse (WriteIn (SectionSetKey (DefaultSectionSetKey New "hello".toList
        "world".toList) "section1".toList "key".toList "val".toList)) = Res.ok d' ∧
      SameDoc d' (SectionSetKey (DefaultSectionSetKey New "hello".toList "world".toList)
        "section1".toList "key".toList "val".toList) :=
  (write_then_parse (SectionSetKey (DefaultSectionSetKey New "hello".toList "world".toList)
      "section1".toList "key".toList "val".toList) (by
    have hd : SectionSetKey (DefaultSectionSetKey New "hello".toList "world".toList)
        "section1".toList "key".toList "val".toList =
        [(defaultSection, [("hello".toList, "world".toList)]),
          ("section1".toList, [("key".toList, "val".toList)])] := by decide
    rw [hd]
    refine ⟨by decide, by decide, ?_⟩
    intro n m hm
    simp only [List.mem_cons, Prod.mk.injEq, List.mem_singleton, List.not_mem_nil,
      or_false] at hm
    rcases hm with ⟨rfl, rfl⟩ | ⟨rfl, rfl⟩
    · refine ⟨by decide, by decide, ?_⟩
      intro k v hkv
      simp only [List.mem_singleton, Prod.mk.injEq] at hkv
      obtain ⟨rfl, rfl⟩ := hkv
      exact ⟨by decide, by decide, by decide, (Trimmed_iff _).2 (by decide), by decide,
        by decide, by decide, (Trimmed_iff _).2 (by decide), by decide⟩
    · refine ⟨by decide, by decide, ?_⟩
      intro k v hkv
      simp only [List.mem_singleton, Prod.mk.injEq] at hkv
      obtain ⟨rfl, rfl⟩ := hkv
      exact ⟨by decide, by decide, by decide, (Trimmed_iff _).2 (by decide), by decide,
        by decide, by decide, (Trimmed_iff _).2 (by decide), by decide⟩)).2 _
    ⟨_, IterOrder_refl _, rfl⟩

/-! ## The written text -/

theorem IterOrder_single (n : Str) (kv : kvMap) (o : INI) (h : IterOrder [(n, kv)] o) :
    ∃ kv', kv.Perm kv' ∧ o = [(n, kv')] := by
  obtain ⟨mid, hf, hp⟩ := h
  rw [List.forall₂_cons_left_iff] at hf
  obtain ⟨b, u, hab, hu, rfl⟩ := hf
  rw [List.forall₂_nil_left_iff] at hu
  subst hu
  obtain ⟨b1, b2⟩ := b
  simp only at hab
  obtain ⟨rfl, hperm⟩ := hab
  have := List.singleton_perm.1 hp
  exact ⟨b2, hperm, this.symm⟩

theorem writeKV_eq_concat (kv : kvMap) : writeKV kv = concat (kv.map entryText) := by
  induction kv with
  | nil => rfl
  | cons e t ih =>
    obtain ⟨k, v⟩ := e
    simp only [writeKV, List.map_cons, concat, List.foldr_cons, entryText, List.append_assoc,
      List.cons_append, List.nil_append]
    simp only [concat] at ih
    rw [ih]

theorem writeSections_eq_concat (d : INI) :
    writeSections d =
      concat ((d.filter (fun e => e.1 ≠ defaultSection)).map sectionText) := by
  induction d with
  | nil => rfl
  | cons e t ih =>
    obtain ⟨n, kv⟩ := e
    by_cases hn : n = defaultSection
    · rw [List.filter_cons_of_neg (by simp [hn])]
      simp only [writeSections, if_pos hn, ih]
    · rw [List.filter_cons_of_pos (by simp [hn])]
      simp only [writeSections, if_neg hn, ih, List.map_cons, concat, List.foldr_cons,
        sectionText, writeKV_eq_concat, List.cons_append, List.append_assoc]

theorem WriteIn_eq_formatText (d : INI) :
    WriteIn d =
      formatText ((mget d defaultSection).getD [])
        (d.filter (fun e => e.1 ≠ defaultSection)) := by
  unfold WriteIn formatText
  rw [writeSections_eq_concat]
  cases mget d defaultSection with
  | none => rfl
  | some kv => simp only [writeKV_eq_concat, Option.getD_some]

theorem Forall₂_mget (d mid : INI)
    (h : List.Forall₂ (fun a b => a.1 = b.1 ∧ List.Perm a.2 b.2) d mid) (n : Str) :
    ((mget d n).getD []).Perm ((mget mid n).getD []) := by
  induction h with
  | nil => exact List.Perm.refl _
  | @cons a b l1 l2 hab _ ih =>
    obtain ⟨a1, a2⟩ := a
    obtain ⟨b1, b2⟩ := b
    simp only at hab
    obtain ⟨rfl, hp⟩ := hab
    by_cases hn : a1 = n
    · simp only [mget, if_pos hn, Option.getD_some]
      exact hp
    · simp only [mget, if_neg hn]
      exact ih

theorem Forall₂_filter (d mid : INI)
    (h : List.Forall₂ (fun a b => a.1 = b.1 ∧ List.Perm a.2 b.2) d mid) (x : Str) :
    List.Forall₂ (fun a b => a.1 = b.1 ∧ List.Perm a.2 b.2)
      (d.filter (fun e => e.1 ≠ x)) (mid.filter (fun e => e.1 ≠ x)) := by
  induction h with
  | nil => exact List.Forall₂.nil
  | @cons a b l1 l2 hab _ ih =>
    by_cases hx : a.1 = x
    · have hb : b.1 = x := hab.1 ▸ hx
      rw [List.filter_cons_of_neg (by simp [hx]), List.filter_cons_of_neg (by simp [hb])]
      exact ih
    · have hb : ¬ b.1 = x := hab.1 ▸ hx
      rw [List.filter_cons_of_pos (by simp [hx]), List.filter_cons_of_pos (by simp [hb])]
      exact List.Forall₂.cons hab ih

/-- C14: every text that `Write` produces for a document (a map: no section
name listed twice) is, for some order `kv0` of the entries of the default
section and some order `others` of the other sections and of their entries,
the lines `key=value` of `kv0`, without header, followed for each section of
`others` by its line `[name]` and its lines `key=value`, and nothing else; the
document `New` is written as the empty text. -/
theorem Write_format (d : INI) (hnd : (keys d).Nodup) (out : Str) (h : Write d out) :
    (∃ kv0 others, kv0.Perm ((mget d defaultSection).getD []) ∧
      IterOrder (d.filter (fun e => e.1 ≠ defaultSection)) others ∧
      out = formatText kv0 others) ∧
    (∀ t, Write New t ↔ t = []) := by
  constructor
  · obtain ⟨o, ho, rfl⟩ := h
    obtain ⟨mid, hf, hp⟩ := ho
    refine ⟨(mget o defaultSection).getD [], o.filter (fun e => e.1 ≠ defaultSection),
      ?_, ?_, WriteIn_eq_formatText o⟩
    · have hmid : (keys mid).Nodup := by rw [Forall₂_keys d mid hf]; exact hnd
      rw [← mget_perm mid o hmid hp defaultSection]
      exact (Forall₂_mget d mid hf defaultSection).symm
    · exact ⟨_, Forall₂_filter d mid hf defaultSection, List.Perm.filter _ hp⟩
  · intro t
    constructor
    · rintro ⟨o, ho, rfl⟩
      obtain ⟨kv', hperm, rfl⟩ := IterOrder_single _ _ o ho
      have : kv' = [] := (List.nil_perm.1 hperm)
      subst this
      rfl
    · rintro rfl
      exact ⟨New, IterOrder_refl New, rfl⟩

/-- The text written for a document with a default entry and one section. -/
theorem Write_format_witness :
    ∃ kv0 others,
      kv0.Perm ((mget [([], [("a".toList, "1".toList)]),
        ("s".toList, [("b".toList, "2".toList)])] defaultSection).getD []) ∧
      IterOrder ([([], [("a".toList, "1".toList)]),
        ("s".toList, [("b".toList, "2".toList)])].filter
          (fun e => e.1 ≠ defaultSection)) others ∧
      "a=1\n[s]\nb=2\n".toList = formatText kv0 others :=
  (Write_format [([], [("a".toList, "1".toList)]), ("s".toList, [("b".toList, "2".toList)])]
    (by decide) "a=1\n[s]\nb=2\n".toList ⟨_, IterOrder_refl _, by decide⟩).1

/-- C20: the document made from `New` by `SectionSetKey("", "k", "")` is
written as `k=` and a line break, and `Parse` of every text written for it
fails with `ErrFormat`; the document made by `SectionSetKey("", "k", " v")` is
written as `k= v` and a line break, and `Parse` of every text written for it
succeeds with a document that differs from it (the value read back is `v`). -/
theorem mutators_break_round_trip :
    (Write (SectionSetKey New defaultSection "k".toList []) "k=\n".toList ∧
      ∀ out, Write (SectionSetKey New defaultSection "k".toList []) out →
        Parse out = Res.error Err.ErrFormat) ∧
    (Write (SectionSetKey New defaultSection "k".toList " v".toList) "k= v\n".toList ∧
      ∀ out, Write (SectionSetKey New defaultSection "k".toList " v".toList) out →
        ∃ d', Parse out = Res.ok d' ∧
          find d' defaultSection "k".toList = some (some "v".toList) ∧
          ¬ SameDoc d' (SectionSetKey New defaultSection "k".toList " v".toList)) := by
  have h1 : SectionSetKey New defaultSection "k".toList [] =
      [(defaultSection, [("k".toList, [])])] := by decide
  have h2 : SectionSetKey New defaultSection "k".toList " v".toList =
      [(defaultSection, [("k".toList, " v".toList)])] := by decide
  rw [h1, h2]
  refine ⟨⟨⟨_, IterOrder_refl _, by decide⟩, ?_⟩, ⟨⟨_, IterOrder_refl _, by decide⟩, ?_⟩⟩
  · rintro out ⟨o, ho, rfl⟩
    obtain ⟨kv', hperm, rfl⟩ := IterOrder_single _ _ o ho
    have := List.singleton_perm.1 hperm
    subst this
    decide
  · rintro out ⟨o, ho, rfl⟩
    obtain ⟨kv', hperm, rfl⟩ := IterOrder_single _ _ o ho
    have := List.singleton_perm.1 hperm
    subst this
    refine ⟨[(defaultSection, [("k".toList, "v".toList)])], by decide, by decide, ?_⟩
    intro hs
    have := hs defaultSection "k".toList
    revert this
    decide

/-! ## Accesses of the parser -/

theorem Index_lt (l : Str) (c : Char) : ∀ pos, Index l c = some pos → pos < l.length := by
  induction l with
  | nil => intro pos h; simp [Index] at h
  | cons x t ih =>
    intro pos h
    by_cases hx : x = c
    · simp only [Index, if_pos hx, Option.some.injEq] at h
      subst h
      simp
    · simp only [Index, if_neg hx, Option.map_eq_some'] at h
      obtain ⟨p, hp, rfl⟩ := h
      have := ih p hp
      simp only [List.length_cons]
      omega

/-- Every access of a loop iteration is within bounds: the checked iteration
never panics and agrees with `parseLine`. -/
theorem parseLineChecked_eq (ini : INI) (cur raw : Str) :
    parseLineChecked ini cur raw = some (parseLine ini cur raw) := by
  unfold parseLineChecked parseLine
  generalize TrimSpace raw = line
  by_cases hs : line.length = 0 ∨ HasPrefix line comment = true
  · have hs' : ((line.length : Int) = 0 ∨ HasPrefix line comment = true) := by
      rcases hs with h | h
      · exact Or.inl (by exact_mod_cast h)
      · exact Or.inr h
    simp only [if_pos hs, if_pos hs']
  · have hs' : ¬ ((line.length : Int) = 0 ∨ HasPrefix line comment = true) := by
      rintro (h | h)
      · exact hs (Or.inl (by exact_mod_cast h))
      · exact hs (Or.inr h)
    simp only [if_neg hs, if_neg hs']
    cases line with
    | nil => exact absurd (Or.inl rfl) hs
    | cons c t =>
      have hi0 : index? (c :: t) 0 = some c := by
        simp [index?]
      have hlast : index? (c :: t) (((c :: t).length : Int) - 1) = (c :: t).getLast? := by
        have hl : (c :: t).length = t.length + 1 := rfl
        have e1 : (((c :: t).length : Int) - 1).toNat = (c :: t).length - 1 := by
          rw [hl]
          push_cast
          omega
        unfold index?
        rw [if_pos (by rw [hl]; push_cast; omega), List.getLast?_eq_getElem?, e1,
          List.get?_eq_getElem?]
      rw [hi0]
      simp only [Option.some_bind]
      by_cases hb : (c :: t).head? = some '[' ∧ (c :: t).getLast? = some ']'
      · obtain ⟨n, hn⟩ := (Bracketed_iff _).1 hb
        have hc : c = '[' := by
          have := hb.1
          simpa using this
        rw [if_pos hb, if_pos hc, hlast, hb.2]
        simp only [Option.map_some', decide_True, Option.some_bind, if_true]
        have hlen : (c :: t).length = n.length + 2 := by rw [hn]; simp
        have hsl : slice? (c :: t) 1 (((c :: t).length : Int) - 1) =
            some (((c :: t).take ((c :: t).length - 1)).drop 1) := by
          have e1 : (((c :: t).length : Int) - 1).toNat = (c :: t).length - 1 := by
            rw [hlen]
            push_cast
            omega
          have e0 : (1 : Int).toNat = 1 := rfl
          have hcond : (0 : Int) ≤ 1 ∧ (1 : Int) ≤ ((c :: t).length : Int) - 1 ∧
              ((c :: t).length : Int) - 1 ≤ ((c :: t).length : Int) := by
            rw [hlen]
            push_cast
            exact ⟨trivial, by omega, by omega⟩
          unfold slice?
          rw [if_pos hcond, e1, e0]
        rw [hsl, Option.map_some']
      · rw [if_neg hb]
        have hh : (if c = '[' then
            Option.map (fun c => decide (c = ']')) (index? (c :: t) (((c :: t).length : Int) - 1))
            else some false) = some false := by
          by_cases hc : c = '['
          · rw [if_pos hc, hlast]
            cases hl : (c :: t).getLast? with
            | none => simp at hl
            | some x =>
              have hx : ¬ x = ']' := by
                intro e
                apply hb
                exact ⟨by simp [hc], by rw [hl, e]⟩
              simp [hx]
          · rw [if_neg hc]
        rw [hh]
        simp only [Option.some_bind, Bool.false_eq_true, if_false]
        cases hidx : Index (c :: t) separator with
        | none => rfl
        | some pos =>
          have hlt := Index_lt _ _ pos hidx
          have h1 : slice? (c :: t) 0 pos = some ((c :: t).take pos) := by
            have hcond : (0 : Int) ≤ 0 ∧ (0 : Int) ≤ (pos : Int) ∧
                (pos : Int) ≤ ((c :: t).length : Int) := by omega
            unfold slice?
            rw [if_pos hcond]
            simp
          have h2 : slice? (c :: t) ((pos : Int) + 1) ((c :: t).length : Int) =
              some ((c :: t).drop (pos + 1)) := by
            have hcond : (0 : Int) ≤ (pos : Int) + 1 ∧
                (pos : Int) + 1 ≤ ((c :: t).length : Int) ∧
                ((c :: t).length : Int) ≤ ((c :: t).length : Int) := by omega
            have e1 : (((c :: t).length : Int)).toNat = (c :: t).length := by omega
            have e2 : ((pos : Int) + 1).toNat = pos + 1 := by omega
            unfold slice?
            rw [if_pos hcond, e1, e2, List.take_length]
          simp only [h1, h2, Option.some_bind, Option.map_some']

theorem parseLoopChecked_eq (lines : List Str) : ∀ (ini : INI) (cur : Str),
    parseLoopChecked ini cur lines = some (parseLoop ini cur lines) := by
  induction lines with
  | nil => intro ini cur; rfl
  | cons raw rest ih =>
    intro ini cur
    unfold parseLoopChecked parseLoop
    rw [parseLineChecked_eq]
    cases h : parseLine ini cur raw with
    | error e => rfl
    | ok st =>
      obtain ⟨ini', cur'⟩ := st
      exact ih ini' cur'

/-- C19: on every input `parse` returns, and what it returns is a document or
`ErrFormat`; the index and slice expressions `line[0]`, `line[size-1]`,
`line[1:size-1]`, `line[:pos]` and `line[pos+1:]` are within bounds whenever
they are evaluated, that is, the parser with checked accesses never panics and
returns what `parse` returns.  This holds in particular for the empty input, a
lone `[`, a lone `]`, a lone `=` and a line ending in `=`. -/
theorem parse_total_in_bounds (ini : INI) (data : Str) :
    parseChecked ini data = some (parse ini data) ∧
    ((∃ d, parse ini data = Res.ok d) ∨ parse ini data = Res.error Err.ErrFormat) ∧
    parseChecked New [] = some (Res.ok New) ∧
    parseChecked New "[".toList = some (Res.error Err.ErrFormat) ∧
    parseChecked New "]".toList = some (Res.error Err.ErrFormat) ∧
    parseChecked New "=".toList = some (Res.error Err.ErrFormat) ∧
    parseChecked New "a=".toList = some (Res.error Err.ErrFormat) := by
  have hex : ∀ (t : Str) (r : Res INI), parse New t = r → parseChecked New t = some r :=
    fun t r hr => (parseLoopChecked_eq _ _ _).trans (congrArg some hr)
  refine ⟨parseLoopChecked_eq _ _ _, ?_, hex _ _ (by decide), hex _ _ (by decide),
    hex _ _ (by decide), hex _ _ (by decide), hex _ _ (by decide)⟩
  cases h : parse ini data with
  | ok d => exact Or.inl ⟨d, rfl⟩
  | error e =>
    right
    unfold parse at h
    rw [parseLoop_eq_itemLoop, itemLoop_error_iff] at h
    rw [h.1]

end Ini
